import Mathlib

/-!
Verification development for the `mg` repository (a minimal git-like
content-addressed version-control system written in Rust).

Shallow embedding conventions:
* Byte strings are `List Nat` with every byte `< 256` where it matters.
* The loose-object store is an association list from the 40-character
  lowercase-hex path (as ASCII bytes) to the *framed, uncompressed*
  object bytes.  zlib deflate/inflate is an external, invertible
  transport (`flate2`); the store therefore holds the framed stream
  the code compresses on write and decompresses on read.
* Machine integers are `Nat`; `% 2 ^ w` is applied where wrap-around
  is observable (SHA-1 words, u16 truncation in the index writer).
* Rust panics (failed `assert_eq!`, slice-index panics, `unwrap` on
  `None`, `unimplemented!`) and `Result` errors are both modelled as
  `Except` errors, with distinct constructors.
-/

set_option maxRecDepth 4000

/-- Error kinds used across the embedding. -/
inductive MgErr where
  | notFound
  | unexpectedChar
  | badHeader
  | unknownKind
  | badParse
  | badUtf8
  | badHex
  | panicked
  | fuelOut
  | noCommit
  | ioError
  | assertFail
  | unimplementedFeature
  | unknownType
  | invalidMode
  | invalidMagic
  | unsupportedVersion
deriving DecidableEq, Repr

/-! ## Hexadecimal encoding (the `hex` crate: `hex::encode`, `FromHex`) -/

/-- Lowercase hex digit of a nibble, as an ASCII byte. -/
def hexDigit (n : Nat) : Nat := if n < 10 then 48 + n else 87 + n

/-- `hex::encode`: two lowercase hex characters per byte. -/
def hexEncode (bs : List Nat) : List Nat :=
  bs.flatMap (fun b => [hexDigit (b / 16), hexDigit (b % 16)])

/-- Value of one ASCII hex character (upper- or lowercase), if valid. -/
def hexVal (c : Nat) : Option Nat :=
  if 48 ≤ c ∧ c ≤ 57 then some (c - 48)
  else if 97 ≤ c ∧ c ≤ 102 then some (c - 87)
  else if 65 ≤ c ∧ c ≤ 70 then some (c - 55)
  else none

/-- Decode an even-length ASCII hex string into bytes (`hex::FromHex`). -/
def hexDecode : List Nat → Option (List Nat)
  | [] => some []
  | [_] => none
  | c1 :: c2 :: rest => do
      let h ← hexVal c1
      let l ← hexVal c2
      let bs ← hexDecode rest
      pure ((h * 16 + l) :: bs)

/-- `<[u8; 20]>::from_hex`: decode and require exactly 20 bytes. -/
def hexDecode20 (cs : List Nat) : Option (List Nat) := do
  let bs ← hexDecode cs
  if bs.length = 20 then some bs else none

/-! ## Decimal rendering and parsing (`format!("{}")`, `str::parse::<usize>`) -/

/-- Fuel-driven decimal digits (most significant first), ASCII bytes. -/
def decDigitsAux : Nat → Nat → List Nat
  | 0, _ => []
  | fuel + 1, n =>
      if n < 10 then [48 + n]
      else decDigitsAux fuel (n / 10) ++ [48 + n % 10]

/-- Decimal rendering of a natural number as ASCII bytes. -/
def natToDec (n : Nat) : List Nat := decDigitsAux (n + 1) n

/-- Parse a run of ASCII decimal digits, accumulator style. -/
def parseDecAux (acc : Nat) : List Nat → Option Nat
  | [] => some acc
  | c :: cs => if 48 ≤ c ∧ c ≤ 57 then parseDecAux (acc * 10 + (c - 48)) cs else none

/-- `str::parse::<usize>` restricted to plain digit strings (the only
form the code ever feeds it: sizes it rendered itself). -/
def parseDec (cs : List Nat) : Option Nat :=
  if cs.isEmpty then none else parseDecAux 0 cs

/-! ## Big-endian byte encodings -/

def be32 (n : Nat) : List Nat :=
  [(n >>> 24) % 256, (n >>> 16) % 256, (n >>> 8) % 256, n % 256]

def be16 (n : Nat) : List Nat := [(n >>> 8) % 256, n % 256]

def be64 (n : Nat) : List Nat :=
  [(n >>> 56) % 256, (n >>> 48) % 256, (n >>> 40) % 256, (n >>> 32) % 256,
   (n >>> 24) % 256, (n >>> 16) % 256, (n >>> 8) % 256, n % 256]

/-- Big-endian word value of a byte list (bytes reduced mod 256). -/
def beWord (bs : List Nat) : Nat := bs.foldl (fun acc b => acc * 256 + b % 256) 0

/-! ## SHA-1 (the `sha1` crate), over byte lists -/

/-- Rotate a 32-bit word left by `s`. -/
def rotl (s x : Nat) : Nat := ((x <<< s) ||| (x >>> (32 - s))) % 4294967296

/-- SHA-1 round function. -/
def sha1F (i b c d : Nat) : Nat :=
  if i < 20 then (b &&& c) ||| ((4294967295 ^^^ b) &&& d)
  else if i < 40 then (b ^^^ c) ^^^ d
  else if i < 60 then ((b &&& c) ||| (b &&& d)) ||| (c &&& d)
  else (b ^^^ c) ^^^ d

/-- SHA-1 round constants. -/
def sha1K (i : Nat) : Nat :=
  if i < 20 then 0x5A827999
  else if i < 40 then 0x6ED9EBA1
  else if i < 60 then 0x8F1BBCDC
  else 0xCA62C1D6

/-- Message-schedule extension: append `n` more words. -/
def sha1Extend : Nat → List Nat → List Nat
  | 0, ws => ws
  | n + 1, ws =>
      let l := ws.length
      let w := rotl 1 (((ws.getD (l - 3) 0) ^^^ (ws.getD (l - 8) 0)) ^^^
                       ((ws.getD (l - 14) 0) ^^^ (ws.getD (l - 16) 0)))
      sha1Extend n (ws ++ [w])

/-- One SHA-1 compression over an 80-word schedule. -/
def sha1Compress (ws : List Nat) (h : Nat × Nat × Nat × Nat × Nat) :
    Nat × Nat × Nat × Nat × Nat :=
  let step := fun (st : Nat × Nat × Nat × Nat × Nat × Nat) (w : Nat) =>
    let (i, a, b, c, d, e) := st
    let t := (rotl 5 a + sha1F i b c d + e + sha1K i + w) % 4294967296
    (i + 1, t, a, rotl 30 b, c, d)
  let r := ws.foldl step (0, h.1, h.2.1, h.2.2.1, h.2.2.2.1, h.2.2.2.2)
  ((h.1 + r.2.1) % 4294967296, (h.2.1 + r.2.2.1) % 4294967296,
   (h.2.2.1 + r.2.2.2.1) % 4294967296, (h.2.2.2.1 + r.2.2.2.2.1) % 4294967296,
   (h.2.2.2.2 + r.2.2.2.2.2) % 4294967296)

/-- SHA-1 padding: 0x80, zeros, 64-bit big-endian bit length. -/
def sha1Pad (msg : List Nat) : List Nat :=
  msg ++ 128 :: (List.replicate ((119 - msg.length % 64) % 64) 0 ++ be64 (8 * msg.length))

/-- Split into 64-byte chunks (fuel-driven). -/
def chunks64 : Nat → List Nat → List (List Nat)
  | 0, _ => []
  | _, [] => []
  | fuel + 1, bs => bs.take 64 :: chunks64 fuel (bs.drop 64)

/-- Group bytes into big-endian 32-bit words (fuel-driven). -/
def toWords : Nat → List Nat → List Nat
  | 0, _ => []
  | _, [] => []
  | fuel + 1, bs => beWord (bs.take 4) :: toWords fuel (bs.drop 4)

/-- SHA-1 digest of a byte list, as 20 bytes. -/
def sha1Bytes (msg : List Nat) : List Nat :=
  let padded := sha1Pad msg
  let r := (chunks64 padded.length padded).foldl
    (fun h blk => sha1Compress (sha1Extend 64 (toWords 16 blk)) h)
    (0x67452301, 0xEFCDAB89, 0x98BADCFE, 0x10325476, 0xC3D2E1F0)
  be32 r.1 ++ be32 r.2.1 ++ be32 r.2.2.1 ++ be32 r.2.2.2.1 ++ be32 r.2.2.2.2

theorem sha1Bytes_length (msg : List Nat) : (sha1Bytes msg).length = 20 := by
  simp [sha1Bytes, be32]

theorem be32_lt_256 (n : Nat) : ∀ b ∈ be32 n, b < 256 := by
  intro b hb
  simp only [be32, List.mem_cons, List.not_mem_nil, or_false] at hb
  rcases hb with h | h | h | h <;> (subst h; exact Nat.mod_lt _ (by decide))

theorem sha1Bytes_lt_256 (msg : List Nat) : ∀ b ∈ sha1Bytes msg, b < 256 := by
  intro b hb
  simp only [sha1Bytes, List.mem_append] at hb
  rcases hb with (((h | h) | h) | h) | h <;> exact be32_lt_256 _ _ h

/-! ## Lemmas about hex and decimal codecs -/

theorem hexVal_hexDigit {n : Nat} (h : n < 16) : hexVal (hexDigit n) = some n := by
  unfold hexDigit hexVal
  by_cases h10 : n < 10
  · rw [if_pos h10, if_pos (by omega)]
    congr 1
    omega
  · rw [if_neg h10, if_neg (by omega), if_pos (by omega)]
    congr 1
    omega

theorem hexVal_lt_16 {c v : Nat} (h : hexVal c = some v) : v < 16 := by
  unfold hexVal at h
  split at h
  · simp only [Option.some.injEq] at h; omega
  · split at h
    · simp only [Option.some.injEq] at h; omega
    · split at h
      · simp only [Option.some.injEq] at h; omega
      · exact absurd h (by simp)

theorem hexDecode_hexEncode {bs : List Nat} (h : ∀ b ∈ bs, b < 256) :
    hexDecode (hexEncode bs) = some bs := by
  induction bs with
  | nil => rfl
  | cons b t ih =>
      have hb : b < 256 := h b (List.mem_cons_self b t)
      have h1 : hexVal (hexDigit (b / 16)) = some (b / 16) := hexVal_hexDigit (by omega)
      have h2 : hexVal (hexDigit (b % 16)) = some (b % 16) :=
        hexVal_hexDigit (Nat.mod_lt _ (by decide))
      have ih' := ih (fun x hx => h x (List.mem_cons_of_mem _ hx))
      have hsh : hexEncode (b :: t) = hexDigit (b / 16) :: hexDigit (b % 16) :: hexEncode t := by
        simp [hexEncode]
      rw [hsh]
      simp only [hexDecode, h1, h2, ih', Option.bind_eq_bind, Option.some_bind,
        Option.pure_def, Option.some.injEq]
      congr 1
      omega

theorem hexDigit_ge_48 (n : Nat) : 48 ≤ hexDigit n := by
  unfold hexDigit; split <;> omega

theorem hexDigit_le_102 {n : Nat} (h : n < 16) : hexDigit n ≤ 102 := by
  unfold hexDigit; split <;> omega

theorem hexEncode_bounds {bs : List Nat} (h : ∀ b ∈ bs, b < 256) :
    ∀ c ∈ hexEncode bs, 48 ≤ c ∧ c ≤ 102 := by
  intro c hc
  simp only [hexEncode, List.mem_flatMap] at hc
  obtain ⟨b, hb, hc⟩ := hc
  have hblt := h b hb
  simp only [List.mem_cons, List.not_mem_nil, or_false] at hc
  rcases hc with h' | h' <;> subst h' <;>
    exact ⟨hexDigit_ge_48 _, hexDigit_le_102 (by omega)⟩

theorem hexEncode_length (bs : List Nat) : (hexEncode bs).length = 2 * bs.length := by
  induction bs with
  | nil => rfl
  | cons b t ih => simp [hexEncode, List.flatMap_cons] at *; omega

theorem hexDecode_lt_256 : ∀ {cs bs : List Nat}, hexDecode cs = some bs → ∀ b ∈ bs, b < 256 := by
  intro cs
  induction cs using hexDecode.induct with
  | case1 => intro bs h b hb; simp [hexDecode] at h; subst h; simp at hb
  | case2 => intro bs h; simp [hexDecode] at h
  | case3 c1 c2 rest ih =>
      intro bs h b hb
      simp only [hexDecode, Option.bind_eq_bind] at h
      cases h1 : hexVal c1 with
      | none => rw [h1] at h; simp at h
      | some v1 =>
        cases h2 : hexVal c2 with
        | none => rw [h1, h2] at h; simp at h
        | some v2 =>
          cases h3 : hexDecode rest with
          | none => rw [h1, h2, h3] at h; simp at h
          | some t =>
            rw [h1, h2, h3] at h
            simp only [Option.some_bind, Option.pure_def, Option.some.injEq] at h
            subst h
            rcases List.mem_cons.mp hb with h' | h'
            · have := hexVal_lt_16 h1; have := hexVal_lt_16 h2; omega
            · exact ih h3 b h'

theorem hexDecode20_spec {cs bs : List Nat} (h : hexDecode20 cs = some bs) :
    bs.length = 20 ∧ ∀ b ∈ bs, b < 256 := by
  unfold hexDecode20 at h
  cases h1 : hexDecode cs with
  | none => rw [h1] at h; simp at h
  | some t =>
      rw [h1] at h
      simp only [Option.bind_eq_bind, Option.some_bind] at h
      split at h
      · cases h; exact ⟨by assumption, hexDecode_lt_256 h1⟩
      · simp at h

theorem hexDecode20_hexEncode {bs : List Nat} (h : ∀ b ∈ bs, b < 256)
    (hlen : bs.length = 20) : hexDecode20 (hexEncode bs) = some bs := by
  unfold hexDecode20
  rw [hexDecode_hexEncode h]
  simp [hlen]

/-! ## Decimal codec lemmas -/

theorem decDigitsAux_bounds :
    ∀ fuel n, ∀ c ∈ decDigitsAux fuel n, 48 ≤ c ∧ c ≤ 57 := by
  intro fuel
  induction fuel with
  | zero => intro n c hc; simp [decDigitsAux] at hc
  | succ fuel ih =>
      intro n c hc
      unfold decDigitsAux at hc
      split at hc
      · simp only [List.mem_cons, List.not_mem_nil, or_false] at hc
        subst hc; omega
      · rcases List.mem_append.mp hc with h' | h'
        · exact ih _ _ h'
        · simp only [List.mem_cons, List.not_mem_nil, or_false] at h'
          subst h'
          have := Nat.mod_lt n (show 0 < 10 by decide)
          omega

theorem decDigitsAux_ne_nil : ∀ fuel n, n < fuel → decDigitsAux fuel n ≠ [] := by
  intro fuel n h
  match fuel with
  | fuel + 1 =>
      unfold decDigitsAux
      split
      · simp
      · simp

theorem parseDecAux_append (acc : Nat) (xs ys : List Nat) :
    parseDecAux acc (xs ++ ys) =
      match parseDecAux acc xs with
      | some m => parseDecAux m ys
      | none => none := by
  induction xs generalizing acc with
  | nil => simp [parseDecAux]
  | cons c t ih =>
      simp only [List.cons_append, parseDecAux]
      split
      · exact ih _
      · rfl

theorem parseDecAux_decDigitsAux :
    ∀ fuel n acc, n < fuel →
      parseDecAux acc (decDigitsAux fuel n) =
        some (acc * 10 ^ (decDigitsAux fuel n).length + n) := by
  intro fuel
  induction fuel with
  | zero => omega
  | succ fuel ih =>
      intro n acc hn
      unfold decDigitsAux
      split
      · rename_i h10
        simp only [parseDecAux]
        rw [if_pos (by omega)]
        simp only [parseDecAux, List.length_cons, List.length_nil]
        congr 1
        omega
      · rename_i h10
        have hdiv : n / 10 < fuel := by
          have : n / 10 < n := Nat.div_lt_self (by omega) (by decide)
          omega
        rw [parseDecAux_append]
        rw [ih (n / 10) acc hdiv]
        simp only [parseDecAux]
        rw [if_pos (by have := Nat.mod_lt n (show 0 < 10 by decide); omega)]
        simp only [parseDecAux, List.length_append, List.length_cons, List.length_nil]
        congr 1
        have hmod := Nat.div_add_mod n 10
        have : 48 + n % 10 - 48 = n % 10 := by omega
        rw [this, Nat.pow_succ]
        ring_nf
        omega

theorem parseDec_natToDec (n : Nat) : parseDec (natToDec n) = some n := by
  unfold parseDec natToDec
  rw [if_neg]
  · rw [parseDecAux_decDigitsAux (n + 1) n 0 (by omega)]
    simp
  · simp only [List.isEmpty_iff]
    exact decDigitsAux_ne_nil (n + 1) n (by omega)

theorem natToDec_bounds (n : Nat) : ∀ c ∈ natToDec n, 48 ≤ c ∧ c ≤ 57 :=
  decDigitsAux_bounds (n + 1) n


/-! ## UTF-8 validation of byte lists -/

/-- Continuation byte 0x80..0xBF. -/
def utf8Cont (c : Nat) : Bool := 128 ≤ c ∧ c ≤ 191

/-- Constraint on the second byte of a multi-byte sequence (excludes
overlong encodings, surrogates and values above U+10FFFF). -/
def utf8Byte2OK (c c2 : Nat) : Bool :=
  if c = 0xE0 then 0xA0 ≤ c2 ∧ c2 ≤ 0xBF
  else if c = 0xED then 0x80 ≤ c2 ∧ c2 ≤ 0x9F
  else if c = 0xF0 then 0x90 ≤ c2 ∧ c2 ≤ 0xBF
  else if c = 0xF4 then 0x80 ≤ c2 ∧ c2 ≤ 0x8F
  else utf8Cont c2

/-- Consume one well-formed UTF-8 codepoint, returning the remainder. -/
def utf8Step (l : List Nat) : Option (List Nat) :=
  match l with
  | [] => none
  | c :: rest =>
      if c ≤ 127 then some rest
      else if 194 ≤ c ∧ c ≤ 223 then
        match rest with
        | c2 :: r => if utf8Cont c2 then some r else none
        | [] => none
      else if 224 ≤ c ∧ c ≤ 239 then
        match rest with
        | c2 :: c3 :: r => if utf8Byte2OK c c2 && utf8Cont c3 then some r else none
        | _ => none
      else if 240 ≤ c ∧ c ≤ 244 then
        match rest with
        | c2 :: c3 :: c4 :: r =>
            if (utf8Byte2OK c c2 && utf8Cont c3) && utf8Cont c4 then some r else none
        | _ => none
      else none

/-- Fuel-driven UTF-8 validity. -/
def validUtf8Aux : Nat → List Nat → Bool
  | _, [] => true
  | 0, _ :: _ => false
  | fuel + 1, c :: t =>
      match utf8Step (c :: t) with
      | some r => validUtf8Aux fuel r
      | none => false

/-- UTF-8 validity of a byte list. -/
def validUtf8 (l : List Nat) : Bool := validUtf8Aux l.length l

theorem utf8Step_cons (c : Nat) (rest : List Nat) :
    utf8Step (c :: rest) =
      (if c ≤ 127 then some rest
       else if 194 ≤ c ∧ c ≤ 223 then
         match rest with
         | c2 :: r => if utf8Cont c2 then some r else none
         | [] => none
       else if 224 ≤ c ∧ c ≤ 239 then
         match rest with
         | c2 :: c3 :: r => if utf8Byte2OK c c2 && utf8Cont c3 then some r else none
         | _ => none
       else if 240 ≤ c ∧ c ≤ 244 then
         match rest with
         | c2 :: c3 :: c4 :: r =>
             if (utf8Byte2OK c c2 && utf8Cont c3) && utf8Cont c4 then some r else none
         | _ => none
       else none) := rfl

theorem utf8Step_shorter : ∀ {l r : List Nat}, utf8Step l = some r → r.length < l.length := by
  intro l r h
  match l with
  | [] => exact absurd h (by simp [utf8Step])
  | c :: rest =>
      rw [utf8Step_cons] at h
      by_cases h1 : c ≤ 127
      · rw [if_pos h1] at h
        cases h
        simp
      · rw [if_neg h1] at h
        by_cases h2 : 194 ≤ c ∧ c ≤ 223
        · rw [if_pos h2] at h
          match rest with
          | [] => exact absurd h (by simp)
          | c2 :: r2 =>
              dsimp only at h
              split at h
              · cases h; simp; omega
              · exact absurd h (by simp)
        · rw [if_neg h2] at h
          by_cases h3 : 224 ≤ c ∧ c ≤ 239
          · rw [if_pos h3] at h
            match rest with
            | [] => exact absurd h (by simp)
            | [c2] => exact absurd h (by simp)
            | c2 :: c3 :: r3 =>
                dsimp only at h
                split at h
                · cases h; simp; omega
                · exact absurd h (by simp)
          · rw [if_neg h3] at h
            by_cases h4 : 240 ≤ c ∧ c ≤ 244
            · rw [if_pos h4] at h
              match rest with
              | [] => exact absurd h (by simp)
              | [c2] => exact absurd h (by simp)
              | [c2, c3] => exact absurd h (by simp)
              | c2 :: c3 :: c4 :: r4 =>
                  dsimp only at h
                  split at h
                  · cases h; simp; omega
                  · exact absurd h (by simp)
            · rw [if_neg h4] at h
              exact absurd h (by simp)

theorem utf8Step_append : ∀ {l r : List Nat}, utf8Step l = some r →
    ∀ (b : List Nat), utf8Step (l ++ b) = some (r ++ b) := by
  intro l r h b
  match l with
  | [] => exact absurd h (by simp [utf8Step])
  | c :: rest =>
      rw [utf8Step_cons] at h
      rw [show (c :: rest) ++ b = c :: (rest ++ b) from rfl, utf8Step_cons]
      by_cases h1 : c ≤ 127
      · rw [if_pos h1] at h ⊢
        cases h
        rfl
      · rw [if_neg h1] at h ⊢
        by_cases h2 : 194 ≤ c ∧ c ≤ 223
        · rw [if_pos h2] at h ⊢
          match rest with
          | [] => exact absurd h (by simp)
          | c2 :: r2 =>
              dsimp only at h
              rw [show (c2 :: r2) ++ b = c2 :: (r2 ++ b) from rfl]
              dsimp only
              split at h
              · cases h
                rename_i hc2
                rw [if_pos hc2]
              · exact absurd h (by simp)
        · rw [if_neg h2] at h ⊢
          by_cases h3 : 224 ≤ c ∧ c ≤ 239
          · rw [if_pos h3] at h ⊢
            match rest with
            | [] => exact absurd h (by simp)
            | [c2] => exact absurd h (by simp)
            | c2 :: c3 :: r3 =>
                dsimp only at h
                rw [show (c2 :: c3 :: r3) ++ b = c2 :: c3 :: (r3 ++ b) from rfl]
                dsimp only
                split at h
                · cases h
                  rename_i hc2
                  rw [if_pos hc2]
                · exact absurd h (by simp)
          · rw [if_neg h3] at h ⊢
            by_cases h4 : 240 ≤ c ∧ c ≤ 244
            · rw [if_pos h4] at h ⊢
              match rest with
              | [] => exact absurd h (by simp)
              | [c2] => exact absurd h (by simp)
              | [c2, c3] => exact absurd h (by simp)
              | c2 :: c3 :: c4 :: r4 =>
                  dsimp only at h
                  rw [show (c2 :: c3 :: c4 :: r4) ++ b = c2 :: c3 :: c4 :: (r4 ++ b) from rfl]
                  dsimp only
                  split at h
                  · cases h
                    rename_i hc2
                    rw [if_pos hc2]
                  · exact absurd h (by simp)
            · rw [if_neg h4] at h
              exact absurd h (by simp)

theorem validUtf8Aux_fuel : ∀ (fuel fuel' : Nat) (l : List Nat),
    l.length ≤ fuel → l.length ≤ fuel' → validUtf8Aux fuel l = validUtf8Aux fuel' l := by
  intro fuel
  induction fuel with
  | zero =>
      intro fuel' l h _
      have : l = [] := List.eq_nil_of_length_eq_zero (by omega)
      subst this
      cases fuel' <;> rfl
  | succ fuel ih =>
      intro fuel' l h h'
      match l with
      | [] => cases fuel' <;> rfl
      | c :: t =>
          match fuel' with
          | fuel2 + 1 =>
              simp only [validUtf8Aux]
              cases hs : utf8Step (c :: t) with
              | none => rfl
              | some r =>
                  have hlt := utf8Step_shorter hs
                  simp only [List.length_cons] at h h' hlt
                  exact ih fuel2 r (by omega) (by omega)

theorem validUtf8_append {a b : List Nat} (ha : validUtf8 a = true)
    (hb : validUtf8 b = true) : validUtf8 (a ++ b) = true := by
  unfold validUtf8 at *
  have main : ∀ (fuel : Nat) (a : List Nat), a.length ≤ fuel →
      validUtf8Aux a.length a = true → validUtf8Aux (a ++ b).length (a ++ b) = true := by
    intro fuel
    induction fuel with
    | zero =>
        intro a h ha
        have : a = [] := List.eq_nil_of_length_eq_zero (by omega)
        subst this
        simpa using hb
    | succ fuel ih =>
        intro a h ha
        match a with
        | [] => simpa using hb
        | c :: t =>
            simp only [List.length_cons] at h
            rw [show (c :: t).length = t.length + 1 from rfl] at ha
            simp only [validUtf8Aux] at ha
            cases hs : utf8Step (c :: t) with
            | none => rw [hs] at ha; exact absurd ha (by simp)
            | some r =>
                rw [hs] at ha
                dsimp only at ha
                have hlt := utf8Step_shorter hs
                simp only [List.length_cons] at hlt
                have ha' : validUtf8Aux r.length r = true := by
                  rw [validUtf8Aux_fuel r.length t.length r (le_refl _) (by omega)]
                  exact ha
                have hr := ih r (by omega) ha'
                have hstep := utf8Step_append hs b
                have hlen : ((c :: t) ++ b).length = (r ++ b).length + ((c :: t).length - r.length) := by
                  simp only [List.length_append, List.length_cons] at *
                  omega
                rw [hlen]
                have hpos : 0 < (c :: t).length - r.length := by
                  simp only [List.length_cons] at *
                  omega
                match hd : (c :: t).length - r.length with
                | 0 => omega
                | d + 1 =>
                    match hcb : (c :: t) ++ b with
                    | [] => simp at hcb
                    | x :: xs =>
                        simp only [validUtf8Aux]
                        rw [← hcb, hstep]
                        calc validUtf8Aux ((r ++ b).length + d) (r ++ b)
                            = validUtf8Aux (r ++ b).length (r ++ b) :=
                              validUtf8Aux_fuel _ _ _ (by omega) (by rfl)
                          _ = true := hr
  exact main a.length a (le_refl _) ha

theorem validUtf8_ascii : ∀ {l : List Nat}, (∀ c ∈ l, c ≤ 127) → validUtf8 l = true := by
  intro l
  induction l with
  | nil => intro _; rfl
  | cons c t ih =>
      intro h
      have hc : c ≤ 127 := h c (List.mem_cons_self c t)
      unfold validUtf8 at *
      simp only [List.length_cons, validUtf8Aux]
      rw [utf8Step_cons, if_pos hc]
      dsimp only
      exact ih (fun x hx => h x (List.mem_cons_of_mem _ hx))

/-! ## Rust `str::lines`, `split_once`, `trim` over byte lists -/

/-- Split a byte list at every newline (byte 10); yields one piece more
than the number of newlines. -/
def splitNl : List Nat → List (List Nat)
  | [] => [[]]
  | c :: rest =>
      if c = 10 then [] :: splitNl rest
      else (c :: (splitNl rest).headD []) :: (splitNl rest).tail

/-- Strip one trailing carriage return, as Rust `str::lines` does. -/
def stripCr (l : List Nat) : List Nat :=
  if l.getLast? = some 13 then l.dropLast else l

/-- Rust `str::lines` over bytes: newline-terminated splitting; a final
newline does not produce a trailing empty line. -/
def rustLines (bs : List Nat) : List (List Nat) :=
  let ps := splitNl bs
  (if ps.getLast? = some [] then ps.dropLast else ps).map stripCr

theorem splitNl_cons_nl (rest : List Nat) : splitNl (10 :: rest) = [] :: splitNl rest := by
  conv_lhs => unfold splitNl
  rw [if_pos rfl]

theorem splitNl_cons_ne {c : Nat} (hc : c ≠ 10) (rest : List Nat) :
    splitNl (c :: rest) = (c :: (splitNl rest).headD []) :: (splitNl rest).tail := by
  conv_lhs => unfold splitNl
  rw [if_neg hc]

theorem splitNl_ne_nil : ∀ (l : List Nat), splitNl l ≠ [] := by
  intro l
  match l with
  | [] => simp [splitNl]
  | c :: rest =>
      by_cases hc : c = 10
      · subst hc; rw [splitNl_cons_nl]; simp
      · rw [splitNl_cons_ne hc]; simp

theorem splitNl_no_nl {xs : List Nat} (h : ¬ 10 ∈ xs) : splitNl xs = [xs] := by
  induction xs with
  | nil => rfl
  | cons c rest ih =>
      rw [splitNl_cons_ne (by simp at h; omega)]
      rw [ih (by simp at h; exact fun hm => h.2 hm)]
      rfl

theorem splitNl_append_nl {xs : List Nat} (h : ¬ 10 ∈ xs) (ys : List Nat) :
    splitNl (xs ++ 10 :: ys) = xs :: splitNl ys := by
  induction xs with
  | nil => simp [splitNl_cons_nl]
  | cons c rest ih =>
      simp only [List.cons_append]
      rw [splitNl_cons_ne (by simp at h; omega)]
      rw [ih (by simp at h; exact fun hm => h.2 hm)]
      simp

theorem splitNl_append_last (xs : List Nat) : splitNl (xs ++ [10]) = splitNl xs ++ [[]] := by
  induction xs with
  | nil => rfl
  | cons c rest ih =>
      simp only [List.cons_append]
      by_cases hc : c = 10
      · subst hc
        rw [splitNl_cons_nl, splitNl_cons_nl, ih]
        rfl
      · rw [splitNl_cons_ne hc, splitNl_cons_ne hc, ih]
        match h : splitNl rest with
        | [] => exact absurd h (splitNl_ne_nil rest)
        | p :: ps => simp

/-- Rust `str::split_once` at a separator byte. -/
def splitOnceAt (sep : Nat) : List Nat → Option (List Nat × List Nat)
  | [] => none
  | c :: rest =>
      if c = sep then some ([], rest)
      else (splitOnceAt sep rest).map (fun p => (c :: p.1, p.2))

theorem splitOnceAt_spec {sep : Nat} {pre : List Nat} (h : ¬ sep ∈ pre) (suf : List Nat) :
    splitOnceAt sep (pre ++ sep :: suf) = some (pre, suf) := by
  induction pre with
  | nil => simp [splitOnceAt]
  | cons c rest ih =>
      simp only [List.cons_append]
      unfold splitOnceAt
      rw [if_neg (by simp at h; omega)]
      rw [ih (by simp at h; exact fun hm => h.2 hm)]
      rfl

/-- ASCII whitespace, the fragment of `char::is_whitespace` that can
occur in the files this code reads. -/
def isAsciiWs (c : Nat) : Bool := c = 32 ∨ c = 9 ∨ c = 10 ∨ c = 13

/-- Rust `str::trim` over bytes (ASCII whitespace). -/
def trimAscii (l : List Nat) : List Nat :=
  ((l.dropWhile isAsciiWs).reverse.dropWhile isAsciiWs).reverse

theorem dropWhile_eq_self_of_all {p : Nat → Bool} {l : List Nat}
    (h : ∀ c ∈ l, p c = false) : l.dropWhile p = l := by
  match l with
  | [] => rfl
  | c :: rest =>
      unfold List.dropWhile
      rw [h c (List.mem_cons_self c rest)]

theorem trimAscii_eq_self {l : List Nat} (h : ∀ c ∈ l, isAsciiWs c = false) :
    trimAscii l = l := by
  unfold trimAscii
  rw [dropWhile_eq_self_of_all h]
  rw [dropWhile_eq_self_of_all (fun c hc => h c (List.mem_reverse.mp hc))]
  exact List.reverse_reverse l

/-! ## Byte-lexicographic order (Rust `Ord` on `String` and `[u8]`) -/

/-- Byte-lexicographic less-or-equal on byte lists. -/
def lexLe : List Nat → List Nat → Bool
  | [], _ => true
  | _ :: _, [] => false
  | a :: x, b :: y => if a < b then true else if b < a then false else lexLe x y

theorem lexLe_total : ∀ (a b : List Nat), lexLe a b = true ∨ lexLe b a = true := by
  intro a
  induction a with
  | nil => intro b; left; rfl
  | cons c x ih =>
      intro b
      match b with
      | [] => right; rfl
      | d :: y =>
          unfold lexLe
          rcases Nat.lt_trichotomy c d with h | h | h
          · left; rw [if_pos h]
          · subst h
            rw [if_neg (by omega), if_neg (by omega), if_neg (by omega), if_neg (by omega)]
            exact ih y
          · right; rw [if_pos h]

theorem lexLe_antisymm : ∀ {a b : List Nat}, lexLe a b = true → lexLe b a = true → a = b := by
  intro a
  induction a with
  | nil =>
      intro b _ hba
      match b with
      | [] => rfl
      | d :: y => exact absurd hba (by simp [lexLe])
  | cons c x ih =>
      intro b hab hba
      match b with
      | [] => exact absurd hab (by simp [lexLe])
      | d :: y =>
          unfold lexLe at hab hba
          rcases Nat.lt_trichotomy c d with h | h | h
          · rw [if_neg (by omega), if_pos h] at hba
            exact absurd hba (by simp)
          · subst h
            rw [if_neg (by omega), if_neg (by omega)] at hab hba
            rw [ih hab hba]
          · rw [if_neg (by omega), if_pos h] at hab
            exact absurd hab (by simp)

theorem lexLe_trans : ∀ {a b c : List Nat},
    lexLe a b = true → lexLe b c = true → lexLe a c = true := by
  intro a
  induction a with
  | nil => intro b c _ _; rfl
  | cons x xs ih =>
      intro b c hab hbc
      match b with
      | [] => exact absurd hab (by simp [lexLe])
      | y :: ys =>
          match c with
          | [] => exact absurd hbc (by simp [lexLe])
          | z :: zs =>
              unfold lexLe at hab hbc ⊢
              rcases Nat.lt_trichotomy x y with h1 | h1 | h1
              · rcases Nat.lt_trichotomy y z with h2 | h2 | h2
                · rw [if_pos (by omega)]
                · subst h2; rw [if_pos (by omega)]
                · rw [if_neg (by omega), if_pos h2] at hbc
                  exact absurd hbc (by simp)
              · subst h1
                rw [if_neg (by omega), if_neg (by omega)] at hab
                rcases Nat.lt_trichotomy x z with h2 | h2 | h2
                · rw [if_pos h2]
                · subst h2
                  rw [if_neg (by omega), if_neg (by omega)] at hbc
                  rw [if_neg (by omega), if_neg (by omega)]
                  exact ih hab hbc
                · rw [if_neg (by omega), if_pos h2] at hbc
                  exact absurd hbc (by simp)
              · rw [if_neg (by omega), if_pos h1] at hab
                exact absurd hab (by simp)

/-! ## Object kinds (`src/kind.rs`) -/

/-- ASCII bytes of a string literal. -/
def strBytes (s : String) : List Nat := s.data.map Char.toNat

/-- The object kinds of `kind.rs`: `Blob(executable)`, `Commit`, `Tree`,
`Symlink`. -/
inductive Kind where
  | blob (executable : Bool)
  | commit
  | tree
  | symlink
deriving DecidableEq, Repr

/-- `impl fmt::Display for Kind`: the kind text. -/
def Kind.text : Kind → List Nat
  | .blob _ => strBytes "blob"
  | .commit => strBytes "commit"
  | .tree => strBytes "tree"
  | .symlink => strBytes "symlink"

/-- `Kind::to_mode`. -/
def Kind.toMode : Kind → List Nat
  | .blob false => strBytes "100644"
  | .blob true => strBytes "100755"
  | .commit => strBytes "160000"
  | .tree => strBytes "40000"
  | .symlink => strBytes "120000"

/-- `Kind::from_mode`. -/
def Kind.fromMode (mode : List Nat) : Except MgErr Kind :=
  if mode = strBytes "100644" then .ok (.blob false)
  else if mode = strBytes "100755" then .ok (.blob true)
  else if mode = strBytes "160000" then .ok .commit
  else if mode = strBytes "120000" then .ok .symlink
  else if mode = strBytes "040000" ∨ mode = strBytes "40000" then .ok .tree
  else .error .invalidMode

/-! ## Loose-object store (`src/object.rs`)

The store maps the 40-character lowercase-hex object path (the
`objects/<aa>/<bb...>` file, keyed here by the full hex string) to the
framed `"<kind> <size>\x00<payload>"` byte stream.  zlib compression is
an invertible transport applied at the file boundary and is modelled as
the identity on the framed bytes. -/

/-- Loose object store: association list, hex path bytes to framed bytes. -/
abbrev Store := List (List Nat × List Nat)

def lookupStore : Store → List Nat → Option (List Nat)
  | [], _ => none
  | (k, v) :: rest, key => if k = key then some v else lookupStore rest key

/-- The framed byte stream `"<kind-text> <decimal-size>\x00" ++ payload`. -/
def frameBytes (kind : Kind) (content : List Nat) : List Nat :=
  kind.text ++ 32 :: (natToDec content.length ++ 0 :: content)

/-- `Repository::write_object`: hash the framed stream, return the id;
write the framed (compressed) stream unless the object file exists. -/
def writeObjectS (store : Store) (kind : Kind) (content : List Nat) :
    Store × List Nat :=
  let hash := sha1Bytes (frameBytes kind content)
  let hashStr := hexEncode hash
  match lookupStore store hashStr with
  | some _ => (store, hash)
  | none => ((hashStr, frameBytes kind content) :: store, hash)

/-- `Repository::write_blob` (the filesystem existence and
path-containment checks are external I/O): `write_object(Blob(false))`
on the file content. -/
def writeBlobS (store : Store) (content : List Nat) : Store × List Nat :=
  writeObjectS store (.blob false) content

/-- `hash_file` from `src/index.rs`: the blob id of a file's content,
computed without touching the store. -/
def hash_file (content : List Nat) : List Nat :=
  sha1Bytes (strBytes "blob " ++ natToDec content.length ++ 0 :: content)

/-- The in-memory `Object` after `read_object`: kind, announced size,
and the remaining reader bytes. -/
structure ObjectM where
  kind : Kind
  size : Nat
  data : List Nat
deriving DecidableEq, Repr

/-- Kind text recognition in `read_object` (note: `"blob"` maps to
`Blob(true)` unconditionally; `"symlink"` is not accepted). -/
def readKindText (t : List Nat) : Except MgErr Kind :=
  if t = strBytes "blob" then .ok (.blob true)
  else if t = strBytes "commit" then .ok .commit
  else if t = strBytes "tree" then .ok .tree
  else .error .unknownKind

/-- `Repository::read_object` on a hex object name. -/
def readObject (store : Store) (object : List Nat) : Except MgErr ObjectM :=
  if object.length < 2 then .error .panicked
  else
    match lookupStore store object with
    | none => .error .notFound
    | some frame =>
        let header := frame.takeWhile (fun c => c != 0)
        if header.length = frame.length then .error .unexpectedChar
        else
          let rest := frame.drop (header.length + 1)
          if validUtf8 header = false then .error .badUtf8
          else
            match splitOnceAt 32 header with
            | none => .error .badHeader
            | some (objectType, sizeBytes) => do
                let kind ← readKindText objectType
                let size ← match parseDec sizeBytes with
                  | some n => Except.ok n
                  | none => Except.error MgErr.badParse
                .ok ⟨kind, size, rest⟩

/-! ## `Object::string` rendering -/

/-- A parsed tree entry (`TreeObject` in `object.rs`).  `name` keeps the
trailing NUL delimiter exactly as the Rust loop leaves it in the slice
returned by `splitn`. -/
structure TreeObject where
  mode : List Nat
  kind : Kind
  name : List Nat
  hash : List Nat
deriving DecidableEq, Repr

/-- The ordering used by both sorts in the source
(`entries.sort_by(|a, b| a.name.cmp(&b.name))`): byte-lexicographic
comparison of the entry names. -/
def entryLe (a b : TreeObject) : Prop := lexLe a.name b.name = true

instance : DecidableRel entryLe := fun a b => by unfold entryLe; infer_instance

instance : IsTotal TreeObject entryLe := ⟨fun a b => lexLe_total a.name b.name⟩

instance : IsTrans TreeObject entryLe := ⟨fun _ _ _ => lexLe_trans⟩

/-- The tree-entry parse loop of `Object::string` (fuel-driven on the
remaining bytes). -/
def parseTreeEntries : Nat → List Nat → Except MgErr (List TreeObject)
  | 0, data => if data.isEmpty then .ok [] else .error .fuelOut
  | fuel + 1, data =>
      if data.isEmpty then .ok []
      else
        let noNul := data.takeWhile (fun c => c != 0)
        let buf := if noNul.length < data.length then noNul ++ [0] else noNul
        let afterBuf := data.drop buf.length
        match splitOnceAt 32 buf with
        | none => .error .badHeader
        | some (mode, name) =>
            if validUtf8 mode = false then .error .badUtf8
            else if validUtf8 name = false then .error .badUtf8
            else if afterBuf.length < 20 then .error .ioError
            else do
              let kind ← Kind.fromMode mode
              let rest ← parseTreeEntries fuel (afterBuf.drop 20)
              .ok (⟨mode, kind, name, afterBuf.take 20⟩ :: rest)

/-- `format!("{:0>6} ...")` zero left-padding. -/
def padLeftZero (w : Nat) (s : List Nat) : List Nat :=
  List.replicate (w - s.length) 48 ++ s

/-- `format!("{:w$}")` space right-padding. -/
def padRightSpace (w : Nat) (s : List Nat) : List Nat :=
  s ++ List.replicate (w - s.length) 32

/-- One rendered tree line. -/
def renderTreeEntry (maxLen : Nat) (e : TreeObject) : List Nat :=
  padLeftZero 6 e.mode ++ 32 :: (e.kind.text ++ 32 :: (hexEncode e.hash ++
    [32, 32, 32, 32] ++ padRightSpace maxLen e.name))

/-- `Object::string`: UTF-8 payload for blobs and commits, the sorted
rendering for trees, `unimplemented!` for the rest. -/
def objectString (o : ObjectM) : Except MgErr (List Nat) :=
  match o.kind with
  | .blob _ | .commit => if validUtf8 o.data then .ok o.data else .error .badUtf8
  | .tree => do
      let entries ← parseTreeEntries o.data.length o.data
      let maxLen := entries.foldl (fun m e => if e.name.length > m then e.name.length else m) 0
      let sorted := List.insertionSort entryLe entries
      .ok (List.intercalate [10] (sorted.map (renderTreeEntry maxLen)))
  | .symlink => .error .panicked

/-! ## Store and frame lemmas -/

theorem lookupStore_cons_self (key v : List Nat) (store : Store) :
    lookupStore ((key, v) :: store) key = some v := by
  simp [lookupStore]

theorem lookupStore_cons_ne {k key : List Nat} (h : k ≠ key) (v : List Nat) (store : Store) :
    lookupStore ((k, v) :: store) key = lookupStore store key := by
  simp [lookupStore, h]

theorem Kind.text_bounds (k : Kind) : ∀ c ∈ k.text, 98 ≤ c ∧ c ≤ 121 := by
  cases k with
  | blob e => cases e <;> decide
  | commit => decide
  | tree => decide
  | symlink => decide

theorem Kind.text_no_space (k : Kind) : ¬ 32 ∈ k.text := by
  intro hm
  have := Kind.text_bounds k 32 hm
  omega

theorem frameBytes_decomp (k : Kind) (c : List Nat) :
    frameBytes k c = (k.text ++ 32 :: natToDec c.length) ++ 0 :: c := by
  simp [frameBytes]

theorem takeWhile_ne_zero_append {l : List Nat} (h : ∀ c ∈ l, c ≠ 0) (rest : List Nat) :
    (l ++ 0 :: rest).takeWhile (fun c => c != 0) = l := by
  induction l with
  | nil => simp
  | cons c t ih =>
      have hc : c ≠ 0 := h c (List.mem_cons_self c t)
      simp only [List.cons_append, List.takeWhile_cons]
      rw [if_pos (by simpa using hc)]
      rw [ih (fun x hx => h x (List.mem_cons_of_mem _ hx))]

/-- Header bytes of a frame are nonzero ASCII. -/
theorem frame_header_bytes (k : Kind) (n : Nat) :
    ∀ c ∈ k.text ++ 32 :: natToDec n, c ≠ 0 ∧ c ≤ 127 := by
  intro c hc
  rcases List.mem_append.mp hc with h | h
  · have := Kind.text_bounds k c h
    omega
  · rcases List.mem_cons.mp h with h | h
    · omega
    · have := natToDec_bounds n c h
      omega

/-- The result kind `read_object` assigns: `"blob"` text comes back as
`Blob(true)` whatever the original executable bit was. -/
def readKindOf : Kind → Kind
  | .blob _ => .blob true
  | k => k

theorem readKindText_text (k : Kind) (h : k ≠ .symlink) :
    readKindText k.text = .ok (readKindOf k) := by
  cases k with
  | blob e => rfl
  | commit => rfl
  | tree => rfl
  | symlink => exact absurd rfl h

theorem readKindText_symlink : readKindText (Kind.text .symlink) = .error .unknownKind := rfl

/-- Reading a store slot that holds a frame parses the header back. -/
theorem readObject_lookup_frame {store : Store} {key : List Nat} {k : Kind} {c : List Nat}
    (hk : lookupStore store key = some (frameBytes k c)) (hlen : 2 ≤ key.length)
    (hsym : k ≠ .symlink) :
    readObject store key = .ok ⟨readKindOf k, c.length, c⟩ := by
  unfold readObject
  rw [if_neg (by omega), hk]
  dsimp only
  have hhdr := frame_header_bytes k c.length
  have h1 : (frameBytes k c).takeWhile (fun x => x != 0) = k.text ++ 32 :: natToDec c.length := by
    rw [frameBytes_decomp]
    exact takeWhile_ne_zero_append (fun x hx => (hhdr x hx).1) c
  rw [h1]
  have hlen2 : (k.text ++ 32 :: natToDec c.length).length + 1 + c.length = (frameBytes k c).length := by
    rw [frameBytes_decomp]
    simp
    omega
  rw [if_neg (by omega)]
  have hrest : (frameBytes k c).drop ((k.text ++ 32 :: natToDec c.length).length + 1) = c := by
    rw [frameBytes_decomp]
    have : (k.text ++ 32 :: natToDec c.length) ++ 0 :: c =
        ((k.text ++ 32 :: natToDec c.length) ++ [0]) ++ c := by simp
    rw [this]
    have hl : (k.text ++ 32 :: natToDec c.length).length + 1 =
        ((k.text ++ 32 :: natToDec c.length) ++ [0]).length := by simp; omega
    rw [hl, List.drop_left]
  rw [hrest]
  have hutf : validUtf8 (k.text ++ 32 :: natToDec c.length) = true :=
    validUtf8_ascii (fun x hx => (frame_header_bytes k c.length x hx).2)
  rw [hutf]
  simp only [Bool.true_eq_false, if_false]
  have hsplit : splitOnceAt 32 (k.text ++ 32 :: natToDec c.length) =
      some (k.text, natToDec c.length) :=
    splitOnceAt_spec (Kind.text_no_space k) (natToDec c.length)
  rw [hsplit]
  dsimp only
  rw [readKindText_text k hsym]
  simp only [parseDec_natToDec]
  rfl

/-- Reading a symlink frame fails: the kind text is not recognized. -/
theorem readObject_lookup_symlink {store : Store} {key : List Nat} {c : List Nat}
    (hk : lookupStore store key = some (frameBytes .symlink c)) (hlen : 2 ≤ key.length) :
    readObject store key = .error .unknownKind := by
  unfold readObject
  rw [if_neg (by omega), hk]
  dsimp only
  have hhdr := frame_header_bytes .symlink c.length
  have h1 : (frameBytes .symlink c).takeWhile (fun x => x != 0) =
      Kind.text .symlink ++ 32 :: natToDec c.length := by
    rw [frameBytes_decomp]
    exact takeWhile_ne_zero_append (fun x hx => (hhdr x hx).1) c
  rw [h1]
  have hlen2 : (Kind.text .symlink ++ 32 :: natToDec c.length).length + 1 + c.length =
      (frameBytes .symlink c).length := by
    rw [frameBytes_decomp]
    simp
    omega
  rw [if_neg (by omega)]
  have hutf : validUtf8 (Kind.text .symlink ++ 32 :: natToDec c.length) = true :=
    validUtf8_ascii (fun x hx => (frame_header_bytes .symlink c.length x hx).2)
  rw [hutf]
  simp only [Bool.true_eq_false, if_false]
  have hsplit : splitOnceAt 32 (Kind.text .symlink ++ 32 :: natToDec c.length) =
      some (Kind.text .symlink, natToDec c.length) :=
    splitOnceAt_spec (Kind.text_no_space .symlink) (natToDec c.length)
  rw [hsplit]
  dsimp only
  rw [readKindText_symlink]
  rfl

/-! ## Tree builder (`src/tree.rs`) -/

/-- Entry sort of `write_tree` and `Object::string`:
`entries.sort_by(|a, b| a.name.cmp(&b.name))` — a stable sort by the
byte-lexicographic order on names. -/
def sortTreeEntries (entries : List TreeObject) : List TreeObject :=
  List.insertionSort entryLe entries

/-- The emitted Tree payload: sorted entries, each encoded as
`<mode> <name>\x00<20-byte-id>`. -/
def treePayload (entries : List TreeObject) : List Nat :=
  (sortTreeEntries entries).flatMap (fun e => e.mode ++ 32 :: (e.name ++ 0 :: e.hash))

/-- A filesystem subtree: regular files (content, `st_mode`) and
directories with named children in readdir order. -/
inductive Fs where
  | file (content : List Nat) (mode : Nat)
  | dir (children : List (List Nat × Fs))

def dotGit : List Nat := strBytes ".git"

/-- The child loop of `Repository::write_tree`.  Fuel-driven recursion
(the filesystem is finite); note that only the `.git` name is skipped —
`self.ignore` is in scope in the source but never consulted. -/
def writeTreeEntries (ignore : List (List Nat)) : Nat → Store → List (List Nat × Fs) →
    Except MgErr (Store × List TreeObject)
  | 0, _, _ => .error .fuelOut
  | _ + 1, store, [] => .ok (store, [])
  | fuel + 1, store, (name, node) :: rest =>
      if name = dotGit then writeTreeEntries ignore fuel store rest
      else
        match node with
        | .file content mode => do
            let r := writeBlobS store content
            let kind := Kind.blob ((mode &&& 0o111) != 0)
            let (store2, entries) ← writeTreeEntries ignore fuel r.1 rest
            .ok (store2, ⟨kind.toMode, kind, name, r.2⟩ :: entries)
        | .dir children => do
            let (store1, subEntries) ← writeTreeEntries ignore fuel store children
            let r := writeObjectS store1 .tree (treePayload subEntries)
            let (store3, entries) ← writeTreeEntries ignore fuel r.1 rest
            .ok (store3, ⟨Kind.tree.toMode, .tree, name, r.2⟩ :: entries)

/-- `Repository::write_tree` on a directory's children. -/
def writeTreeFs (ignore : List (List Nat)) (fuel : Nat) (store : Store)
    (children : List (List Nat × Fs)) : Except MgErr (Store × List Nat) := do
  let (store1, entries) ← writeTreeEntries ignore fuel store children
  .ok (writeObjectS store1 .tree (treePayload entries))

/-! ## Commit and log (`src/commit.rs`, `src/log.rs`) -/

/-- Repository state for commit/log: the loose-object store and the
content of `refs/heads/<branch>` (when the file exists).  `HEAD` is the
fixed `ref: refs/heads/<branch>` indirection. -/
structure GitState where
  store : Store
  branch : Option (List Nat)
deriving Repr

/-- `Repository::current_commit`: read the branch file, trim, parse 40
hex characters into 20 bytes. -/
def currentCommit (st : GitState) : Option (List Nat) :=
  match st.branch with
  | none => none
  | some content => hexDecode20 (trimAscii content)

/-- The commit payload composed by `Repository::commit`: tree line,
parent line when `current_commit()` yields one, blank line, message. -/
def commitPayload (parent : Option (List Nat)) (treeHash msg : List Nat) : List Nat :=
  strBytes "tree " ++ hexEncode treeHash ++ [10] ++
  (match parent with
   | some p => strBytes "parent " ++ hexEncode p ++ [10]
   | none => []) ++
  10 :: (msg ++ [10])

/-- `Repository::commit`: `treeHash` is the result of the
`write_tree(&self.path)` call (the filesystem walk is modelled by
`writeTreeFs`); the object is stored and the branch tip is replaced by
the 40-character hex of the new id. -/
def commitS (st : GitState) (treeHash msg : List Nat) : GitState × List Nat :=
  let payload := commitPayload (currentCommit st) treeHash msg
  let r := writeObjectS st.store .commit payload
  ({ store := r.1, branch := some (hexEncode r.2) }, r.2)

/-- The loop of `Repository::log`: load the commit at the current id,
print it, follow the first `parent ` header line.  Returns the sequence
of visited commit ids. -/
def logLoop (store : Store) : Nat → List Nat → Except MgErr (List (List Nat))
  | 0, _ => .error .fuelOut
  | fuel + 1, currentId => do
      let obj ← readObject store (hexEncode currentId)
      let desc ← objectString obj
      let lines := rustLines desc
      match lines.findIdx? (fun l => l.isEmpty) with
      | none => .error .panicked
      | some idx =>
          match lines.get? (idx + 1) with
          | none => .error .panicked
          | some _ =>
              match lines.find? (fun l => (strBytes "parent ").isPrefixOf l) with
              | none => .ok [currentId]
              | some parentLine =>
                  match splitOnceAt 32 parentLine with
                  | none => .error .panicked
                  | some sp =>
                      match hexDecode20 sp.2 with
                      | none => .error .badHex
                      | some parentId => do
                          let rest ← logLoop store fuel parentId
                          .ok (currentId :: rest)

/-- `Repository::log`: start from `current_commit()`. -/
def logIds (st : GitState) (fuel : Nat) : Except MgErr (List (List Nat)) :=
  match currentCommit st with
  | none => .error .noCommit
  | some c => logLoop st.store fuel c

/-! ## Staging-index writer (`src/index.rs`, `write_index`) -/

/-- The ten `u32` stat fields of an index entry. -/
structure StatInfo where
  ctime_s : Nat
  ctime_n : Nat
  mtime_s : Nat
  mtime_n : Nat
  dev : Nat
  ino : Nat
  mode : Nat
  uid : Nat
  gid : Nat
  size : Nat
deriving DecidableEq, Repr

/-- One entry as emitted by `write_index`: 40 stat bytes, 20 sha bytes,
the 16-bit big-endian `(path_bytes.len() as u16)` (the `flags` slot),
the path, then `8 - len % 8` NUL bytes. -/
def indexEntryBytes (stat : StatInfo) (sha : List Nat) (path : List Nat) : List Nat :=
  let ec :=
    be32 stat.ctime_s ++ be32 stat.ctime_n ++ be32 stat.mtime_s ++ be32 stat.mtime_n ++
    be32 stat.dev ++ be32 stat.ino ++ be32 stat.mode ++ be32 stat.uid ++ be32 stat.gid ++
    be32 stat.size ++ sha ++ be16 (path.length % 65536) ++ path
  ec ++ List.replicate (8 - ec.length % 8) 0

/-- The full `write_index` output over the (sorted) file list: `DIRC`,
version 2, count, entries; the sha of each entry is `hash_file` of the
file's content.  No trailing checksum is written. -/
def writeIndexBytes (files : List (List Nat × StatInfo × List Nat)) : List Nat :=
  strBytes "DIRC" ++ be32 2 ++ be32 files.length ++
  files.flatMap (fun f => indexEntryBytes f.2.1 (hash_file f.2.2) f.1)

/-! ## Pack reader (`src/pack.rs`)

The zlib decompressor is the external `flate2` collaborator: it is a
parameter `inflate` mapping the byte suffix at the cursor to the
decompressed payload and the count of compressed bytes consumed
(`total_in`). -/

inductive PackObjectType where
  | commit
  | tree
  | blob
  | tag
  | ofsDelta
  | refDelta
deriving DecidableEq, Repr

/-- `PackObjectType::from_u8`. -/
def PackObjectType.from_u8 (v : Nat) : Except MgErr PackObjectType :=
  match v with
  | 1 => .ok .commit
  | 2 => .ok .tree
  | 3 => .ok .blob
  | 4 => .ok .tag
  | 6 => .ok .ofsDelta
  | 7 => .ok .refDelta
  | _ => .error .unknownType

structure PackObject where
  objectType : PackObjectType
  objectSize : Nat
  objectData : List Nat
  pos : Nat
  endPos : Nat
deriving DecidableEq, Repr

/-- External streaming decompressor: decompressed bytes and compressed
bytes consumed. -/
abbrev Inflate := List Nat → Option (List Nat × Nat)

/-- `decompress_file`: inflate at the cursor, then advance the cursor by
`total_in`. -/
def decompressFile (inflate : Inflate) (file : List Nat) (pos : Nat) :
    Except MgErr (List Nat × Nat) :=
  match inflate (file.drop pos) with
  | none => .error .ioError
  | some r => if pos + r.2 ≤ file.length then .ok (r.1, pos + r.2) else .error .ioError

/-- `read_vli_le` (little-endian chunks, high bit continues) over a byte
stream, consuming input. -/
def readVliLeAux : Nat → Nat → Nat → List Nat → Except MgErr (Nat × List Nat)
  | 0, _, _, _ => .error .fuelOut
  | fuel + 1, val, shift, stream =>
      match stream with
      | [] => .error .ioError
      | b :: rest =>
          let val := val ||| ((b &&& 0x7f) <<< shift)
          if b &&& 0x80 = 0 then .ok (val, rest)
          else readVliLeAux fuel val (shift + 7) rest

def readVliLe (stream : List Nat) : Except MgErr (Nat × List Nat) :=
  readVliLeAux stream.length 0 0 stream

/-- `read_vli_be` with the pack "offset" encoding (`val = (val<<7)|low7`,
plus one before each continuation when `offsetMode`). -/
def readVliBe (offsetMode : Bool) : Nat → List Nat → Nat → Nat → Except MgErr (Nat × Nat)
  | 0, _, _, _ => .error .fuelOut
  | fuel + 1, file, pos, val =>
      match file.get? pos with
      | none => .error .ioError
      | some b =>
          let val := (val <<< 7) ||| (b &&& 0x7f)
          if b &&& 0x80 = 0 then .ok (val, pos + 1)
          else readVliBe offsetMode fuel file (pos + 1) (if offsetMode then val + 1 else val)

/-- The object-header size loop of `parse_pack_entry`: continuation
bytes add 7 bits at shifts 4, 11, 18, ... while the previous byte had
its high bit set. -/
def readSizeCont : Nat → List Nat → Nat → Nat → Nat → Nat → Except MgErr (Nat × Nat)
  | 0, _, _, _, _, _ => .error .fuelOut
  | fuel + 1, file, pos, size, bshift, prevByte =>
      if prevByte &&& 0x80 = 0x80 then
        match file.get? pos with
        | none => .error .ioError
        | some b => readSizeCont fuel file (pos + 1) (size + ((b &&& 0x7f) <<< bshift)) (bshift + 7) b
      else .ok (size, pos)

/-- Read the gated bytes of a copy instruction: for each bit index, one
byte from the stream when the bit is set in `byt`, else 0. -/
def readGated (byt : Nat) : List Nat → List Nat → Except MgErr (List Nat × List Nat)
  | [], stream => .ok ([], stream)
  | i :: restBits, stream =>
      if byt &&& (1 <<< i) ≠ 0 then
        match stream with
        | [] => .error .ioError
        | b :: s2 => do
            let (vs, s3) ← readGated byt restBits s2
            .ok (b :: vs, s3)
      else do
        let (vs, s2) ← readGated byt restBits stream
        .ok (0 :: vs, s2)

/-- Copy length of a delta copy instruction: the 16-bit little-endian
value of the two gated bytes, with 0 meaning 0x10000. -/
def copyLen (v4 v5 : Nat) : Nat :=
  let n := v4 + 256 * v5
  if n = 0 then 0x10000 else n

/-- The delta instruction loop of `make_delta_obj`. -/
def deltaLoop : Nat → List Nat → List Nat → List Nat → Except MgErr (List Nat)
  | 0, stream, _, acc => if stream.isEmpty then .ok acc else .error .fuelOut
  | fuel + 1, stream, base, acc =>
      match stream with
      | [] => .ok acc
      | byt :: rest =>
          if byt = 0 then deltaLoop fuel rest base acc
          else if byt &&& 0x80 ≠ 0 then do
            let (vals, rest2) ← readGated byt [0, 1, 2, 3, 4, 5] rest
            let start := vals.getD 0 0 + 256 * vals.getD 1 0 + 65536 * vals.getD 2 0 +
              16777216 * vals.getD 3 0
            let nbytes := copyLen (vals.getD 4 0) (vals.getD 5 0)
            if start + nbytes ≤ base.length then
              deltaLoop fuel rest2 base (acc ++ (base.drop start).take nbytes)
            else .error .panicked
          else
            let nbytes := byt &&& 0x7f
            if nbytes ≤ rest.length then
              deltaLoop fuel (rest.drop nbytes) base (acc ++ rest.take nbytes)
            else .error .ioError

/-- `make_delta_obj`: decompress the delta stream at the cursor, check
its length against the header size, read base/patched sizes, run the
instruction loop, check the patched size; the result carries the base
object's type. -/
def makeDeltaObj (inflate : Inflate) (file : List Nat) (currentPos : Nat)
    (baseObj : PackObject) (objectSize : Nat) : Except MgErr PackObject := do
  let (objectData, endP) ← decompressFile inflate file currentPos
  if objectData.length ≠ objectSize then .error .assertFail
  else do
    let (_, s1) ← readVliLe objectData
    let (patched, s2) ← readVliLe s1
    let objData ← deltaLoop s2.length s2 baseObj.objectData []
    if objData.length ≠ patched then .error .assertFail
    else .ok ⟨baseObj.objectType, patched, objData, currentPos, endP⟩

def baseTypes : List PackObjectType := [.commit, .tree, .blob, .tag]

/-- `parse_pack_entry` (with `parse_pack_ofs_delta_object` inlined in
the OfsDelta arm); the delta-chain recursion is fuel-driven. -/
def parsePackEntry (inflate : Inflate) : Nat → List Nat → Nat → Except MgErr PackObject
  | 0, _, _ => .error .fuelOut
  | fuel + 1, file, objectPos =>
      match file.get? objectPos with
      | none => .error .ioError
      | some byte0 => do
          let objectType := (byte0 &&& 0x70) >>> 4
          let (objectSize, pos1) ←
            readSizeCont file.length file (objectPos + 1) (byte0 &&& 0x0f) 4 byte0
          match PackObjectType.from_u8 objectType with
          | .error e => .error e
          | .ok .refDelta => .error .unimplementedFeature
          | .ok .ofsDelta => do
              let (offset, pos2) ← readVliBe true file.length file pos1 0
              if objectPos < offset then .error .panicked
              else do
                let baseObj ← parsePackEntry inflate fuel file (objectPos - offset)
                if baseObj.objectType ∈ baseTypes then
                  makeDeltaObj inflate file pos2 baseObj objectSize
                else .error .assertFail
          | .ok .commit | .ok .tree | .ok .blob | .ok .tag => do
              let (objectData, endP) ← decompressFile inflate file pos1
              if objectData.length ≠ objectSize then .error .assertFail
              else do
                let t ← PackObjectType.from_u8 objectType
                .ok ⟨t, objectSize, objectData, objectPos, endP⟩

/-! ## Pack index header (`dump_pack_index_file`) -/

/-- The magic and version checks at the top of `dump_pack_index_file`.
The source compares `buf[1..4]` for *equality* against `"t0c"` (digit
zero), so the only rejected magics are those whose first byte is not
0xFF or whose tail equals `t0c`. -/
def dumpPackIndexHeader (bytes : List Nat) : Except MgErr Unit :=
  if bytes.length < 4 then .error .ioError
  else
    let buf := bytes.take 4
    if buf.getD 0 0 ≠ 0xff ∨ buf.drop 1 = strBytes "t0c" then .error .invalidMagic
    else if bytes.length < 8 then .error .ioError
    else
      let version := beWord ((bytes.drop 4).take 4)
      if version ≠ 2 then .error .unsupportedVersion
      else .ok ()

/-! ## Sorted-permutation uniqueness for tree entries -/

theorem sorted_perm_nodup_eq : ∀ {l1 l2 : List TreeObject}, l1.Perm l2 →
    l1.Sorted entryLe → l2.Sorted entryLe → (l1.map TreeObject.name).Nodup → l1 = l2 := by
  intro l1
  induction l1 with
  | nil => intro l2 hp _ _ _; exact hp.nil_eq
  | cons a t1 ih =>
      intro l2 hp hs1 hs2 hnd
      match l2 with
      | [] =>
          have := hp.symm.nil_eq
          simp at this
      | b :: t2 =>
          have hab : a = b := by
            by_contra hne
            have haIn : a ∈ b :: t2 := hp.mem_iff.mp (List.mem_cons_self a t1)
            have hbIn : b ∈ a :: t1 := hp.mem_iff.mpr (List.mem_cons_self b t2)
            have haT2 : a ∈ t2 := by
              rcases List.mem_cons.mp haIn with h | h
              · exact absurd h hne
              · exact h
            have hbT1 : b ∈ t1 := by
              rcases List.mem_cons.mp hbIn with h | h
              · exact absurd h.symm hne
              · exact h
            have h1 : entryLe a b := (List.sorted_cons.mp hs1).1 b hbT1
            have h2 : entryLe b a := (List.sorted_cons.mp hs2).1 a haT2
            have hname : a.name = b.name := lexLe_antisymm h1 h2
            have hmem : b.name ∈ t1.map TreeObject.name := List.mem_map_of_mem _ hbT1
            have hnd2 : a.name ∉ t1.map TreeObject.name ∧ (t1.map TreeObject.name).Nodup := by
              rw [List.map_cons, List.nodup_cons] at hnd
              exact hnd
            exact hnd2.1 (by rwa [hname])
          subst hab
          have ht := hp.cons_inv
          have hrec := ih ht (List.sorted_cons.mp hs1).2 (List.sorted_cons.mp hs2).2
            (by simp only [List.map_cons] at hnd; exact (List.nodup_cons.mp hnd).2)
          rw [hrec]

/-- C5: the Tree payload emitted by `write_tree` lists entries in
ascending byte order of their names, and for a fixed multiset of
children with pairwise-distinct names the payload — hence the tree id —
does not depend on the readdir enumeration order. -/
theorem C5_tree_canonicalization :
    (∀ (entries : List TreeObject), (sortTreeEntries entries).Sorted entryLe) ∧
    (∀ (l1 l2 : List TreeObject) (st : Store), l1.Perm l2 →
        (l1.map TreeObject.name).Nodup →
        treePayload l1 = treePayload l2 ∧
        (writeObjectS st .tree (treePayload l1)).2 =
          (writeObjectS st .tree (treePayload l2)).2) := by
  constructor
  · intro entries
    exact List.sorted_insertionSort entryLe entries
  · intro l1 l2 st hperm hnd
    have hp : (sortTreeEntries l1).Perm (sortTreeEntries l2) :=
      (List.perm_insertionSort entryLe l1).trans
        (hperm.trans (List.perm_insertionSort entryLe l2).symm)
    have hnd1 : ((sortTreeEntries l1).map TreeObject.name).Nodup := by
      have hpl : (sortTreeEntries l1).Perm l1 := List.perm_insertionSort entryLe l1
      exact ((hpl.map TreeObject.name).nodup_iff).mpr hnd
    have heq : sortTreeEntries l1 = sortTreeEntries l2 :=
      sorted_perm_nodup_eq hp (List.sorted_insertionSort entryLe l1)
        (List.sorted_insertionSort entryLe l2) hnd1
    have hpay : treePayload l1 = treePayload l2 := by
      unfold treePayload
      rw [show sortTreeEntries l1 = List.insertionSort entryLe l1 from rfl,
          show sortTreeEntries l2 = List.insertionSort entryLe l2 from rfl] at heq
      unfold sortTreeEntries
      rw [heq]
    exact ⟨hpay, by rw [hpay]⟩

def c5entryA : TreeObject := ⟨strBytes "100644", .blob false, strBytes "b.txt", List.replicate 20 1⟩

def c5entryB : TreeObject := ⟨strBytes "100644", .blob false, strBytes "a.txt", List.replicate 20 2⟩

theorem C5_witness :
    [c5entryA, c5entryB].Perm [c5entryB, c5entryA] ∧
    ([c5entryA, c5entryB].map TreeObject.name).Nodup ∧
    treePayload [c5entryA, c5entryB] = treePayload [c5entryB, c5entryA] ∧
    (writeObjectS [] .tree (treePayload [c5entryA, c5entryB])).2 =
      (writeObjectS [] .tree (treePayload [c5entryB, c5entryA])).2 := by
  have hperm : [c5entryA, c5entryB].Perm [c5entryB, c5entryA] := List.Perm.swap _ _ _
  have hnd : ([c5entryA, c5entryB].map TreeObject.name).Nodup := by decide
  have h := C5_tree_canonicalization.2 [c5entryA, c5entryB] [c5entryB, c5entryA] [] hperm hnd
  exact ⟨hperm, hnd, h.1, h.2⟩

/-! ## Bind reduction helpers for `Except` -/

theorem except_bind_ok {ε α β : Type} (a : α) (f : α → Except ε β) :
    (Except.ok a >>= f) = f a := rfl

theorem except_bind_err {ε α β : Type} (e : ε) (f : α → Except ε β) :
    ((Except.error e : Except ε α) >>= f) = .error e := rfl

/-! ## Write-tree entry correspondence -/

/-- What one surviving child contributes to the entry list: its own
name; for a file, a Blob whose executable bit is `mode & 0o111 != 0`;
for a directory, a Tree with mode text `40000`. -/
def entrySpec (child : List Nat × Fs) (e : TreeObject) : Prop :=
  e.name = child.1 ∧
  match child.2 with
  | .file _ mode =>
      e.kind = Kind.blob ((mode &&& 0o111) != 0) ∧
      e.mode = (Kind.blob ((mode &&& 0o111) != 0)).toMode
  | .dir _ => e.kind = .tree ∧ e.mode = Kind.tree.toMode

/-- C6 (amended): `write_tree` skips exactly the children named `.git`;
every other child contributes one entry as described.  The repository's
ignore patterns are not consulted (whatever `ignore` holds). -/
theorem C6_write_tree_skips :
    ∀ (ignore : List (List Nat)) (fuel : Nat) (store store' : Store)
      (children : List (List Nat × Fs)) (es : List TreeObject),
      writeTreeEntries ignore fuel store children = .ok (store', es) →
      List.Forall₂ entrySpec (children.filter (fun c => c.1 ≠ dotGit)) es := by
  intro ignore fuel
  induction fuel with
  | zero =>
      intro store store' children es h
      exact absurd h (by simp [writeTreeEntries])
  | succ fuel ih =>
      intro store store' children es h
      match children with
      | [] =>
          simp only [writeTreeEntries] at h
          cases h
          simp only [List.filter_nil]
          exact List.Forall₂.nil
      | (name, node) :: rest =>
          rw [List.filter_cons]
          by_cases hname : name = dotGit
          · rw [if_neg (by simp [hname])]
            unfold writeTreeEntries at h
            rw [if_pos hname] at h
            exact ih _ _ _ _ h
          · rw [if_pos (by simp [hname])]
            unfold writeTreeEntries at h
            rw [if_neg hname] at h
            match node with
            | .file content mode =>
                dsimp only at h
                cases hrec : writeTreeEntries ignore fuel (writeBlobS store content).1 rest with
                | error e => rw [hrec, except_bind_err] at h; cases h
                | ok p =>
                    rw [hrec, except_bind_ok] at h
                    cases p with
                    | mk s2 entries =>
                        cases h
                        exact List.Forall₂.cons ⟨rfl, rfl, rfl⟩ (ih _ _ _ _ hrec)
            | .dir childrenSub =>
                dsimp only at h
                cases hsub : writeTreeEntries ignore fuel store childrenSub with
                | error e => rw [hsub, except_bind_err] at h; cases h
                | ok q =>
                    rw [hsub, except_bind_ok] at h
                    cases q with
                    | mk s1 subEntries =>
                        dsimp only at h
                        cases hrec : writeTreeEntries ignore fuel
                            (writeObjectS s1 .tree (treePayload subEntries)).1 rest with
                        | error e => rw [hrec, except_bind_err] at h; cases h
                        | ok p =>
                            rw [hrec, except_bind_ok] at h
                            cases p with
                            | mk s3 entries =>
                                cases h
                                exact List.Forall₂.cons ⟨rfl, rfl, rfl⟩ (ih _ _ _ _ hrec)

/-- C6 counterexample to the claim as stated: with the repository's
ignore list containing the pattern `a.txt` — which matches the child
named `a.txt` exactly — `write_tree` still emits an entry for it. -/
theorem C6_counterexample :
    (writeTreeEntries [strBytes "a.txt"] 2 [] [(strBytes "a.txt", Fs.file [] 0o644)]).map
        (fun r => r.2.map TreeObject.name) = .ok [strBytes "a.txt"] := by rfl

def c6input : List (List Nat × Fs) :=
  [(strBytes ".git", Fs.file [] 0o644), (strBytes "x", Fs.dir [])]

def c6result : Store × List TreeObject :=
  ((writeTreeEntries [] 5 [] c6input).toOption).getD ([], [])

theorem C6_witness :
    writeTreeEntries [] 5 [] c6input = .ok c6result ∧
    List.Forall₂ entrySpec (c6input.filter (fun c => c.1 ≠ dotGit)) c6result.2 :=
  ⟨by rfl, C6_write_tree_skips [] 5 [] c6result.1 c6input c6result.2 (by rfl)⟩

/-! ## write_object case lemmas -/

theorem writeObjectS_snd (st : Store) (k : Kind) (c : List Nat) :
    (writeObjectS st k c).2 = sha1Bytes (frameBytes k c) := by
  unfold writeObjectS
  dsimp only
  cases lookupStore st (hexEncode (sha1Bytes (frameBytes k c))) <;> rfl

theorem writeObjectS_of_exists {st : Store} {k : Kind} {c f : List Nat}
    (h : lookupStore st (hexEncode (sha1Bytes (frameBytes k c))) = some f) :
    writeObjectS st k c = (st, sha1Bytes (frameBytes k c)) := by
  unfold writeObjectS
  dsimp only
  rw [h]

theorem writeObjectS_of_fresh {st : Store} {k : Kind} {c : List Nat}
    (h : lookupStore st (hexEncode (sha1Bytes (frameBytes k c))) = none) :
    writeObjectS st k c =
      ((hexEncode (sha1Bytes (frameBytes k c)), frameBytes k c) :: st,
        sha1Bytes (frameBytes k c)) := by
  unfold writeObjectS
  dsimp only
  rw [h]

theorem hexEncode_sha1_length (bs : List Nat) : (hexEncode (sha1Bytes bs)).length = 40 := by
  rw [hexEncode_length, sha1Bytes_length]

/-- C2: the id returned by `write_object(K, C)` is SHA-1 over the framed
bytes `"<kind-text> <decimal-len>\x00" ++ C`; the empty `Blob(false)`
id is `e69de29bb2d1d6434b8b29ae775ad8c2e48c5391`; and `hash_file`
computes the same blob id without writing to the store. -/
theorem C2_hash_stability :
    (∀ (st : Store) (k : Kind) (c : List Nat),
        (writeObjectS st k c).2 = sha1Bytes (frameBytes k c)) ∧
    (writeObjectS [] (.blob false) []).2 =
      [0xe6, 0x9d, 0xe2, 0x9b, 0xb2, 0xd1, 0xd6, 0x43, 0x4b, 0x8b,
       0x29, 0xae, 0x77, 0x5a, 0xd8, 0xc2, 0xe4, 0x8c, 0x53, 0x91] ∧
    hexEncode (writeObjectS [] (.blob false) []).2 =
      strBytes "e69de29bb2d1d6434b8b29ae775ad8c2e48c5391" ∧
    (∀ (st : Store) (c : List Nat), hash_file c = (writeObjectS st (.blob false) c).2) := by
  refine ⟨writeObjectS_snd, by decide, by decide, ?_⟩
  intro st c
  have harg : strBytes "blob " ++ natToDec c.length ++ 0 :: c = frameBytes (.blob false) c := by
    have hb : strBytes "blob " = strBytes "blob" ++ [32] := by decide
    rw [hb]
    simp [frameBytes, Kind.text, List.append_assoc]
  unfold hash_file
  rw [harg, writeObjectS_snd]

/-- C9: the pack-index header checks.  The version check behaves as the
claim says, and the exact magic is accepted; but the magic test is
mis-written (`buf[1..4]` compared for equality against `"t0c"`), so a
wrong magic such as `ff 61 61 61` is also accepted. -/
theorem C9_magic_check :
    dumpPackIndexHeader ([0xff, 116, 79, 99] ++ [0, 0, 0, 2]) = .ok () ∧
    dumpPackIndexHeader ([0xff, 116, 79, 99] ++ [0, 0, 0, 3]) = .error .unsupportedVersion ∧
    dumpPackIndexHeader ([0xfe, 116, 79, 99] ++ [0, 0, 0, 2]) = .error .invalidMagic ∧
    dumpPackIndexHeader ([0xff, 97, 97, 97] ++ [0, 0, 0, 2]) = .ok () ∧
    [(0xff : Nat), 97, 97, 97] ≠ [0xff, 116, 79, 99] := by
  refine ⟨rfl, rfl, rfl, rfl, by decide⟩

/-! ## Index-entry layout (C7) -/

/-- The fixed 62-byte prefix the writer emits before the path: ten
big-endian u32 stat fields, the 20 sha bytes, and the 16-bit field in
the `flags` slot, which holds `path_bytes.len() as u16`. -/
def indexEntryPre (stat : StatInfo) (sha : List Nat) (path : List Nat) : List Nat :=
  be32 stat.ctime_s ++ be32 stat.ctime_n ++ be32 stat.mtime_s ++ be32 stat.mtime_n ++
  be32 stat.dev ++ be32 stat.ino ++ be32 stat.mode ++ be32 stat.uid ++ be32 stat.gid ++
  be32 stat.size ++ sha ++ be16 (path.length % 65536)

def statZero : StatInfo := ⟨0, 0, 0, 0, 0, 0, 0, 0, 0, 0⟩


/-- C7 (amended): each emitted entry is the 62-byte prefix (whose 16-bit
flags field holds `path_len mod 2^16`, not `min(path_len, 0xFFF)`),
then the path, then 1..8 NUL bytes making the total a multiple of 8. -/
theorem C7_index_entry (stat : StatInfo) (sha path : List Nat) (hsha : sha.length = 20) :
    indexEntryBytes stat sha path =
      indexEntryPre stat sha path ++ path ++
        List.replicate (8 - (62 + path.length) % 8) 0 ∧
    (indexEntryPre stat sha path).length = 62 ∧
    1 ≤ 8 - (62 + path.length) % 8 ∧ 8 - (62 + path.length) % 8 ≤ 8 ∧
    (indexEntryBytes stat sha path).length % 8 = 0 := by
  have hec : be32 stat.ctime_s ++ be32 stat.ctime_n ++ be32 stat.mtime_s ++ be32 stat.mtime_n ++
      be32 stat.dev ++ be32 stat.ino ++ be32 stat.mode ++ be32 stat.uid ++ be32 stat.gid ++
      be32 stat.size ++ sha ++ be16 (path.length % 65536) ++ path =
      indexEntryPre stat sha path ++ path := by
    simp [indexEntryPre, List.append_assoc]
  have hlenpre : (indexEntryPre stat sha path).length = 62 := by
    simp [indexEntryPre, be32, be16, hsha]
  have heclen : (indexEntryPre stat sha path ++ path).length = 62 + path.length := by
    rw [List.length_append, hlenpre]
  have hmain : indexEntryBytes stat sha path =
      (indexEntryPre stat sha path ++ path) ++
        List.replicate (8 - (62 + path.length) % 8) 0 := by
    unfold indexEntryBytes
    dsimp only
    rw [hec, heclen]
  refine ⟨by rw [hmain, List.append_assoc], hlenpre, by omega, by omega, ?_⟩
  rw [hmain, List.length_append, List.length_replicate, heclen]
  omega

/-- The two bytes at offsets 60..62 of an emitted entry are the flags
field, holding the big-endian `path_len as u16`. -/
theorem indexEntry_flags (stat : StatInfo) (sha path : List Nat) (hsha : sha.length = 20) :
    ((indexEntryBytes stat sha path).drop 60).take 2 = be16 (path.length % 65536) := by
  have h := (C7_index_entry stat sha path hsha).1
  rw [h]
  have hpre : indexEntryPre stat sha path ++ path ++
      List.replicate (8 - (62 + path.length) % 8) 0 =
      (be32 stat.ctime_s ++ be32 stat.ctime_n ++ be32 stat.mtime_s ++ be32 stat.mtime_n ++
       be32 stat.dev ++ be32 stat.ino ++ be32 stat.mode ++ be32 stat.uid ++ be32 stat.gid ++
       be32 stat.size ++ sha) ++
      (be16 (path.length % 65536) ++ (path ++ List.replicate (8 - (62 + path.length) % 8) 0)) := by
    simp [indexEntryPre, List.append_assoc]
  rw [hpre]
  have hlen60 : (be32 stat.ctime_s ++ be32 stat.ctime_n ++ be32 stat.mtime_s ++
      be32 stat.mtime_n ++ be32 stat.dev ++ be32 stat.ino ++ be32 stat.mode ++ be32 stat.uid ++
      be32 stat.gid ++ be32 stat.size ++ sha).length = 60 := by
    simp [be32, hsha]
  rw [show (60 : Nat) = (be32 stat.ctime_s ++ be32 stat.ctime_n ++ be32 stat.mtime_s ++
      be32 stat.mtime_n ++ be32 stat.dev ++ be32 stat.ino ++ be32 stat.mode ++ be32 stat.uid ++
      be32 stat.gid ++ be32 stat.size ++ sha).length from hlen60.symm, List.drop_left]
  rw [show (2 : Nat) = (be16 (path.length % 65536)).length from rfl, List.take_left]

/-- C7 counterexample: for a 4096-byte path the two flag bytes are
`10 00` (4096 as a big-endian u16), not `min(path_len, 0xFFF) = 0FFF`. -/
theorem C7_counterexample :
    ((indexEntryBytes statZero (List.replicate 20 0) (List.replicate 4096 97)).drop 60).take 2 =
      [16, 0] ∧
    ([16, 0] : List Nat) ≠ be16 (min 4096 0xFFF) := by
  constructor
  · rw [indexEntry_flags statZero _ _ (by simp)]
    simp only [List.length_replicate]
    decide
  · decide

theorem C7_witness :
    (List.replicate 20 0 : List Nat).length = 20 ∧
    indexEntryBytes statZero (List.replicate 20 0) (strBytes "a.txt") =
      indexEntryPre statZero (List.replicate 20 0) (strBytes "a.txt") ++ strBytes "a.txt" ++
        List.replicate (8 - (62 + (strBytes "a.txt").length) % 8) 0 ∧
    (indexEntryBytes statZero (List.replicate 20 0) (strBytes "a.txt")).length % 8 = 0 := by
  have h := C7_index_entry statZero (List.replicate 20 0) (strBytes "a.txt") (by decide)
  exact ⟨by decide, h.1, h.2.2.2.2⟩

/-! ## Blob flag and symlink behaviour of read_object -/

theorem readKindText_ok_blob {t : List Nat} {b : Bool} (h : readKindText t = .ok (.blob b)) :
    b = true := by
  unfold readKindText at h
  split at h
  · cases h; rfl
  · split at h
    · cases h
    · split at h
      · cases h
      · cases h

theorem readObject_blob_true {st : Store} {key : List Nat} {b : Bool} {sz : Nat}
    {data : List Nat} (h : readObject st key = .ok ⟨.blob b, sz, data⟩) : b = true := by
  unfold readObject at h
  split at h
  · cases h
  · split at h
    · cases h
    · rename_i frame _
      dsimp only at h
      split at h
      · cases h
      · split at h
        · cases h
        · split at h
          · cases h
          · rename_i hopt oT sB heq
            cases hkt : readKindText oT with
            | error e => rw [hkt, except_bind_err] at h; cases h
            | ok k' =>
                rw [hkt, except_bind_ok] at h
                split at h
                · rw [except_bind_ok] at h
                  cases h
                  exact readKindText_ok_blob hkt
                · rw [except_bind_err] at h; cases h

/-- C10: `write_object(Symlink, P)` succeeds and stores a frame whose
kind text is `symlink`, but `read_object` on the returned id always
fails (`invalid object type found`); and any successful `read_object`
of a blob yields `Blob(true)`, so the executable flag is never
recovered. -/
theorem C10_symlink_objects :
    (∀ (st : Store) (P : List Nat),
        (writeObjectS st .symlink P).2 = sha1Bytes (frameBytes .symlink P) ∧
        frameBytes .symlink P = strBytes "symlink " ++ natToDec P.length ++ 0 :: P) ∧
    (∀ (st : Store) (P : List Nat),
        lookupStore st (hexEncode (sha1Bytes (frameBytes .symlink P))) = none →
        lookupStore (writeObjectS st .symlink P).1 (hexEncode (writeObjectS st .symlink P).2) =
          some (frameBytes .symlink P) ∧
        readObject (writeObjectS st .symlink P).1 (hexEncode (writeObjectS st .symlink P).2) =
          .error .unknownKind) ∧
    (∀ (st : Store) (key : List Nat) (b : Bool) (sz : Nat) (data : List Nat),
        readObject st key = .ok ⟨.blob b, sz, data⟩ → b = true) := by
  refine ⟨?_, ?_, fun _ _ _ _ _ h => readObject_blob_true h⟩
  · intro st P
    refine ⟨writeObjectS_snd st .symlink P, ?_⟩
    have hs : strBytes "symlink " = strBytes "symlink" ++ [32] := by decide
    rw [hs]
    simp [frameBytes, Kind.text, List.append_assoc]
  · intro st P hfresh
    rw [writeObjectS_of_fresh hfresh]
    dsimp only
    refine ⟨lookupStore_cons_self _ _ _, ?_⟩
    exact readObject_lookup_symlink (lookupStore_cons_self _ _ _)
      (by rw [hexEncode_sha1_length]; omega)

theorem C10_witness :
    lookupStore [] (hexEncode (sha1Bytes (frameBytes .symlink []))) = none ∧
    lookupStore (writeObjectS [] .symlink []).1 (hexEncode (writeObjectS [] .symlink []).2) =
      some (frameBytes .symlink []) ∧
    readObject (writeObjectS [] .symlink []).1 (hexEncode (writeObjectS [] .symlink []).2) =
      .error .unknownKind :=
  ⟨rfl, (C10_symlink_objects.2.1 [] [] rfl).1, (C10_symlink_objects.2.1 [] [] rfl).2⟩

/-- C1 counterexample: the claim quantifies over every kind, but for
`Symlink` the read-back fails rather than returning the payload. -/
theorem C1_counterexample :
    readObject (writeObjectS [] .symlink []).1 (hexEncode (writeObjectS [] .symlink []).2) =
      .error .unknownKind := by rfl

/-- C1 (amended): `put` is deterministic — the id depends only on the
kind and payload; when the object file already exists the id is
returned unchanged and the store is untouched; and for the kinds
`read_object` accepts (Blob, Tree, Commit — not Symlink) reading the id
back yields a payload byte-equal to the input. -/
theorem C1_put_get :
    (∀ (st : Store) (k : Kind) (c : List Nat),
        (writeObjectS st k c).2 = sha1Bytes (frameBytes k c)) ∧
    (∀ (st : Store) (k : Kind) (c f : List Nat),
        lookupStore st (hexEncode (sha1Bytes (frameBytes k c))) = some f →
        writeObjectS st k c = (st, sha1Bytes (frameBytes k c))) ∧
    (∀ (st : Store) (k : Kind) (c : List Nat), k ≠ .symlink →
        lookupStore st (hexEncode (sha1Bytes (frameBytes k c))) = none →
        readObject (writeObjectS st k c).1 (hexEncode (writeObjectS st k c).2) =
          .ok ⟨readKindOf k, c.length, c⟩) := by
  refine ⟨writeObjectS_snd, fun _ _ _ _ h => writeObjectS_of_exists h, ?_⟩
  intro st k c hsym hfresh
  rw [writeObjectS_of_fresh hfresh]
  dsimp only
  exact readObject_lookup_frame (lookupStore_cons_self _ _ _)
    (by rw [hexEncode_sha1_length]; omega) hsym

theorem C1_witness :
    lookupStore [] (hexEncode (sha1Bytes (frameBytes .tree []))) = none ∧
    readObject (writeObjectS [] .tree []).1 (hexEncode (writeObjectS [] .tree []).2) =
      .ok ⟨.tree, 0, []⟩ ∧
    lookupStore [(hexEncode (sha1Bytes (frameBytes .tree [])), frameBytes .tree [])]
        (hexEncode (sha1Bytes (frameBytes .tree []))) = some (frameBytes .tree []) ∧
    writeObjectS [(hexEncode (sha1Bytes (frameBytes .tree [])), frameBytes .tree [])] .tree [] =
      ([(hexEncode (sha1Bytes (frameBytes .tree [])), frameBytes .tree [])],
        sha1Bytes (frameBytes .tree [])) := by
  refine ⟨rfl, C1_put_get.2.2 [] .tree [] (by simp) rfl, lookupStore_cons_self _ _ _, ?_⟩
  exact C1_put_get.2.1 _ .tree [] (frameBytes .tree []) (lookupStore_cons_self _ _ _)

/-- C8 counterexample: a stored object whose header announces size 5
but whose payload is the 2 bytes `AB` is read back without any error —
there is no size check and no SizeMismatch error kind in the code. -/
theorem C8_counterexample :
    readObject [(strBytes "ab", strBytes "blob 5" ++ 0 :: strBytes "AB")] (strBytes "ab") =
      .ok ⟨.blob true, 5, strBytes "AB"⟩ ∧
    (strBytes "AB").length = 2 := ⟨rfl, rfl⟩

/-- C8 (amended): the reader yields exactly the bytes that follow the
header NUL; for any well-framed stored object that count equals the
announced size, and a full read (`Object::string` on blobs/commits)
returns those bytes with no size enforcement. -/
theorem C8_reader_size :
    (∀ (store : Store) (key : List Nat) (k : Kind) (c : List Nat),
        lookupStore store key = some (frameBytes k c) → 2 ≤ key.length → k ≠ .symlink →
        readObject store key = .ok ⟨readKindOf k, c.length, c⟩) ∧
    (∀ (o : ObjectM), (o.kind = .blob true ∨ o.kind = .blob false ∨ o.kind = .commit) →
        validUtf8 o.data = true → objectString o = .ok o.data) := by
  constructor
  · intro store key k c h hlen hsym
    exact readObject_lookup_frame h hlen hsym
  · intro o hk hv
    match o, hk with
    | ⟨.blob true, sz, data⟩, _ => unfold objectString; dsimp only; rw [hv]; rfl
    | ⟨.blob false, sz, data⟩, _ => unfold objectString; dsimp only; rw [hv]; rfl
    | ⟨.commit, sz, data⟩, _ => unfold objectString; dsimp only; rw [hv]; rfl

theorem C8_witness :
    lookupStore [(strBytes "ab", frameBytes (.blob false) (strBytes "hi"))] (strBytes "ab") =
      some (frameBytes (.blob false) (strBytes "hi")) ∧
    readObject [(strBytes "ab", frameBytes (.blob false) (strBytes "hi"))] (strBytes "ab") =
      .ok ⟨.blob true, 2, strBytes "hi"⟩ ∧
    objectString ⟨.commit, 2, strBytes "hi"⟩ = .ok (strBytes "hi") := by
  refine ⟨rfl, ?_, ?_⟩
  · exact C8_reader_size.1 _ _ (.blob false) (strBytes "hi") rfl (by decide) (by simp)
  · exact C8_reader_size.2 ⟨.commit, 2, strBytes "hi"⟩ (by simp) (by decide)

/-! ## Pack invariants (C3) -/

theorem makeDeltaObj_ok {inflate : Inflate} {file : List Nat} {cur : Nat}
    {baseObj : PackObject} {objectSize : Nat} {obj : PackObject}
    (h : makeDeltaObj inflate file cur baseObj objectSize = .ok obj) :
    obj.objectType = baseObj.objectType ∧ obj.objectData.length = obj.objectSize ∧
    ∃ data endP b0 s1 s2, decompressFile inflate file cur = .ok (data, endP) ∧
      data.length = objectSize ∧
      readVliLe data = .ok (b0, s1) ∧ readVliLe s1 = .ok (obj.objectSize, s2) := by
  unfold makeDeltaObj at h
  cases hd : decompressFile inflate file cur with
  | error e => rw [hd, except_bind_err] at h; cases h
  | ok p =>
      rw [hd, except_bind_ok] at h
      obtain ⟨data, endP⟩ := p
      dsimp only at h
      split at h
      · cases h
      · rename_i hdl
        cases h1 : readVliLe data with
        | error e => rw [h1, except_bind_err] at h; cases h
        | ok q =>
            rw [h1, except_bind_ok] at h
            obtain ⟨b0, s1⟩ := q
            dsimp only at h
            cases h2 : readVliLe s1 with
            | error e => rw [h2, except_bind_err] at h; cases h
            | ok r =>
                rw [h2, except_bind_ok] at h
                obtain ⟨patched, s2⟩ := r
                dsimp only at h
                cases h3 : deltaLoop s2.length s2 baseObj.objectData [] with
                | error e => rw [h3, except_bind_err] at h; cases h
                | ok od =>
                    rw [h3, except_bind_ok] at h
                    split at h
                    · cases h
                    · rename_i hlen
                      cases h
                      exact ⟨rfl, by dsimp only; omega,
                        data, endP, b0, s1, s2, rfl, by omega, h1, h2⟩

theorem parsePackEntry_ok (inflate : Inflate) :
    ∀ (fuel : Nat) (file : List Nat) (pos : Nat) (obj : PackObject),
      parsePackEntry inflate fuel file pos = .ok obj →
      obj.objectData.length = obj.objectSize ∧ obj.objectType ∈ baseTypes := by
  intro fuel
  induction fuel with
  | zero => intro _ _ _ h; exact absurd h (by simp [parsePackEntry])
  | succ fuel ih =>
      intro file pos obj h
      unfold parsePackEntry at h
      split at h
      · cases h
      · rename_i byte0 hbyte
        dsimp only at h
        cases hs : readSizeCont file.length file (pos + 1) (byte0 &&& 15) 4 byte0 with
        | error e => rw [hs, except_bind_err] at h; cases h
        | ok sp =>
            rw [hs, except_bind_ok] at h
            obtain ⟨objectSize, pos1⟩ := sp
            dsimp only at h
            split at h
            · cases h
            · cases h
            · -- OfsDelta
              cases hv : readVliBe true file.length file pos1 0 with
              | error e => rw [hv, except_bind_err] at h; cases h
              | ok op =>
                  rw [hv, except_bind_ok] at h
                  obtain ⟨offset, pos2⟩ := op
                  dsimp only at h
                  split at h
                  · cases h
                  · cases hbase : parsePackEntry inflate fuel file (pos - offset) with
                    | error e => rw [hbase, except_bind_err] at h; cases h
                    | ok baseObj =>
                        rw [hbase, except_bind_ok] at h
                        split at h
                        · rename_i hmem
                          have hb := makeDeltaObj_ok h
                          exact ⟨hb.2.1, hb.1 ▸ hmem⟩
                        · cases h
            all_goals {
              rename_i hfu
              cases hd : decompressFile inflate file pos1 with
              | error e => rw [hd, except_bind_err] at h; cases h
              | ok p =>
                  rw [hd, except_bind_ok] at h
                  obtain ⟨objectData, endP⟩ := p
                  dsimp only at h
                  split at h
                  · cases h
                  · rename_i hne
                    rw [hfu, except_bind_ok] at h
                    cases h
                    exact ⟨by dsimp only; omega, by simp [baseTypes]⟩
            }

/-- C3: every successfully parsed pack entry has payload length equal
to its (declared or patched) size and a non-delta resolved type; a
delta result carries its base's type and the patched size announced in
the delta stream; a copy instruction whose gated 16-bit length is
absent (encoded 0) copies 0x10000 bytes from the base. -/
theorem C3_pack_invariants :
    (∀ (inflate : Inflate) (fuel : Nat) (file : List Nat) (pos : Nat) (obj : PackObject),
        parsePackEntry inflate fuel file pos = .ok obj →
        obj.objectData.length = obj.objectSize ∧ obj.objectType ∈ baseTypes) ∧
    (∀ (inflate : Inflate) (file : List Nat) (cur : Nat) (baseObj : PackObject)
        (objectSize : Nat) (obj : PackObject),
        makeDeltaObj inflate file cur baseObj objectSize = .ok obj →
        obj.objectType = baseObj.objectType ∧ obj.objectData.length = obj.objectSize ∧
        ∃ data endP b0 s1 s2, decompressFile inflate file cur = .ok (data, endP) ∧
          data.length = objectSize ∧
          readVliLe data = .ok (b0, s1) ∧ readVliLe s1 = .ok (obj.objectSize, s2)) ∧
    (∀ (fuel : Nat) (rest base acc : List Nat), 65536 ≤ base.length →
        deltaLoop (fuel + 1) (128 :: rest) base acc =
          deltaLoop fuel rest base (acc ++ base.take 65536)) ∧
    copyLen 0 0 = 0x10000 := by
  refine ⟨parsePackEntry_ok, fun _ _ _ _ _ _ h => makeDeltaObj_ok h, ?_, rfl⟩
  intro fuel rest base acc h
  have hstep : deltaLoop (fuel + 1) (128 :: rest) base acc =
      (if 0 + copyLen 0 0 ≤ base.length then
        deltaLoop fuel rest base (acc ++ (base.drop 0).take (copyLen 0 0))
      else .error .panicked) := rfl
  rw [hstep, if_pos (by rw [show copyLen 0 0 = 65536 from rfl]; omega)]
  rw [show copyLen 0 0 = 65536 from rfl, List.drop_zero]

/-- Test decompressor for the concrete pack below: one length byte,
then that many literal bytes. -/
def testInflate : Inflate := fun bs =>
  match bs with
  | [] => none
  | n :: rest => if n ≤ rest.length then some (rest.take n, n + 1) else none

/-- A 15-byte pack fragment: a 4-byte Blob at offset 0, then an
OfsDelta at offset 6 whose stream inserts `X` and copies the base. -/
def packBytes : List Nat := [0x34, 4, 65, 65, 66, 66, 0x66, 6, 6, 4, 5, 1, 88, 0x90, 4]

def packObj0 : PackObject := ⟨.blob, 5, [88, 65, 65, 66, 66], 8, 15⟩

def packBase0 : PackObject := ⟨.blob, 4, [65, 65, 66, 66], 0, 6⟩

theorem C3_witness :
    parsePackEntry testInflate 2 packBytes 6 = .ok packObj0 ∧
    packObj0.objectData.length = packObj0.objectSize ∧
    packObj0.objectType ∈ baseTypes ∧
    makeDeltaObj testInflate packBytes 8 packBase0 6 = .ok packObj0 ∧
    packObj0.objectType = packBase0.objectType ∧
    65536 ≤ (List.replicate 65536 (0 : Nat)).length ∧
    deltaLoop 1 [128] (List.replicate 65536 0) [] =
      deltaLoop 0 [] (List.replicate 65536 0) ([] ++ (List.replicate 65536 0).take 65536) := by
  have hp : parsePackEntry testInflate 2 packBytes 6 = .ok packObj0 := by rfl
  have hm : makeDeltaObj testInflate packBytes 8 packBase0 6 = .ok packObj0 := by rfl
  have hps := C3_pack_invariants.1 testInflate 2 packBytes 6 packObj0 hp
  have hmd := C3_pack_invariants.2.1 testInflate packBytes 8 packBase0 6 packObj0 hm
  have hlen : 65536 ≤ (List.replicate 65536 (0 : Nat)).length := by
    rw [List.length_replicate]
  exact ⟨hp, hps.1, hps.2, hm, hmd.1,
    hlen, C3_pack_invariants.2.2.1 0 [] (List.replicate 65536 0) [] hlen⟩

/-! ## Commit payload line structure (C4) -/

theorem stripCr_eq_of_no13 {l : List Nat} (h : ∀ c ∈ l, c ≠ 13) : stripCr l = l := by
  unfold stripCr
  cases hl : l.getLast? with
  | none => rw [if_neg (by simp [hl])]
  | some x =>
      have hx := h x (List.mem_of_mem_getLast? hl)
      rw [if_neg (by simp; omega)]

theorem isPrefixOf_append_self : ∀ (l t : List Nat), l.isPrefixOf (l ++ t) = true := by
  intro l t
  induction l with
  | nil => simp [List.isPrefixOf]
  | cons c cs ih => simp [List.isPrefixOf, ih]

theorem parent_not_prefixOf_tree (th : List Nat) :
    (strBytes "parent ").isPrefixOf (strBytes "tree " ++ hexEncode th) = false := by
  have h1 : strBytes "parent " = 112 :: strBytes "arent " := by decide
  have h2 : strBytes "tree " = 116 :: strBytes "ree " := by decide
  rw [h1, h2, List.cons_append]
  simp [List.isPrefixOf]

theorem parent_not_prefixOf_nil : (strBytes "parent ").isPrefixOf [] = false := by
  have h1 : strBytes "parent " = 112 :: strBytes "arent " := by decide
  rw [h1]
  rfl

theorem mem_treeLine_bounds {th : List Nat} (hth : ∀ b ∈ th, b < 256) :
    ∀ c ∈ strBytes "tree " ++ hexEncode th, 32 ≤ c ∧ c ≤ 116 := by
  intro c hc
  rcases List.mem_append.mp hc with h | h
  · revert h
    have : ∀ c ∈ strBytes "tree ", 32 ≤ c ∧ c ≤ 116 := by decide
    exact this c
  · have := hexEncode_bounds hth c h
    omega

theorem mem_parentLine_bounds {p : List Nat} (hp : ∀ b ∈ p, b < 256) :
    ∀ c ∈ strBytes "parent " ++ hexEncode p, 32 ≤ c ∧ c ≤ 116 := by
  intro c hc
  rcases List.mem_append.mp hc with h | h
  · revert h
    have : ∀ c ∈ strBytes "parent ", 32 ≤ c ∧ c ≤ 116 := by decide
    exact this c
  · have := hexEncode_bounds hp c h
    omega

theorem payload_none_eq (th msg : List Nat) :
    commitPayload none th msg =
      (strBytes "tree " ++ hexEncode th) ++ 10 :: (10 :: (msg ++ [10])) := by
  simp [commitPayload, List.append_assoc]

theorem payload_some_eq (p th msg : List Nat) :
    commitPayload (some p) th msg =
      (strBytes "tree " ++ hexEncode th) ++ 10 ::
        ((strBytes "parent " ++ hexEncode p) ++ 10 :: (10 :: (msg ++ [10]))) := by
  simp [commitPayload, List.append_assoc]

theorem rustLines_payload_none (th msg : List Nat) (hth : ∀ b ∈ th, b < 256) :
    rustLines (commitPayload none th msg) =
      (strBytes "tree " ++ hexEncode th) :: [] :: (splitNl msg).map stripCr := by
  rw [payload_none_eq]
  unfold rustLines
  dsimp only
  have h10t : ¬ 10 ∈ strBytes "tree " ++ hexEncode th := by
    intro hm
    have := mem_treeLine_bounds hth 10 hm
    omega
  rw [splitNl_append_nl h10t, splitNl_cons_nl, splitNl_append_last]
  have hps : (strBytes "tree " ++ hexEncode th) :: [] :: (splitNl msg ++ [[]]) =
      ((strBytes "tree " ++ hexEncode th) :: [] :: splitNl msg) ++ [[]] := by simp
  rw [hps, List.getLast?_concat, if_pos rfl, List.dropLast_concat]
  simp only [List.map_cons]
  congr 1
  · exact stripCr_eq_of_no13 (fun c hc => by have := mem_treeLine_bounds hth c hc; omega)

theorem rustLines_payload_some (p th msg : List Nat) (hth : ∀ b ∈ th, b < 256)
    (hp : ∀ b ∈ p, b < 256) :
    rustLines (commitPayload (some p) th msg) =
      (strBytes "tree " ++ hexEncode th) :: (strBytes "parent " ++ hexEncode p) ::
        [] :: (splitNl msg).map stripCr := by
  rw [payload_some_eq]
  unfold rustLines
  dsimp only
  have h10t : ¬ 10 ∈ strBytes "tree " ++ hexEncode th := by
    intro hm
    have := mem_treeLine_bounds hth 10 hm
    omega
  have h10p : ¬ 10 ∈ strBytes "parent " ++ hexEncode p := by
    intro hm
    have := mem_parentLine_bounds hp 10 hm
    omega
  rw [splitNl_append_nl h10t, splitNl_append_nl h10p, splitNl_cons_nl, splitNl_append_last]
  have hps : (strBytes "tree " ++ hexEncode th) :: (strBytes "parent " ++ hexEncode p) ::
      [] :: (splitNl msg ++ [[]]) =
      ((strBytes "tree " ++ hexEncode th) :: (strBytes "parent " ++ hexEncode p) ::
        [] :: splitNl msg) ++ [[]] := by simp
  rw [hps, List.getLast?_concat, if_pos rfl, List.dropLast_concat]
  simp only [List.map_cons]
  congr 1
  · exact stripCr_eq_of_no13 (fun c hc => by have := mem_treeLine_bounds hth c hc; omega)
  · congr 1
    exact stripCr_eq_of_no13 (fun c hc => by have := mem_parentLine_bounds hp c hc; omega)

theorem validUtf8_commitPayload (parent : Option (List Nat)) (th msg : List Nat)
    (hth : ∀ b ∈ th, b < 256)
    (hp : ∀ p, parent = some p → ∀ b ∈ p, b < 256)
    (hmsg : validUtf8 msg = true) :
    validUtf8 (commitPayload parent th msg) = true := by
  have hmsgNl : validUtf8 (msg ++ [10]) = true :=
    validUtf8_append hmsg (by decide)
  cases parent with
  | none =>
      rw [payload_none_eq]
      have h1 : validUtf8 (strBytes "tree " ++ hexEncode th) = true :=
        validUtf8_ascii (fun c hc => by have := mem_treeLine_bounds hth c hc; omega)
      have h2 : (strBytes "tree " ++ hexEncode th) ++ 10 :: (10 :: (msg ++ [10])) =
          (strBytes "tree " ++ hexEncode th) ++ ([10, 10] ++ (msg ++ [10])) := rfl
      rw [h2]
      exact validUtf8_append h1 (validUtf8_append (by decide) hmsgNl)
  | some p =>
      rw [payload_some_eq]
      have hpb := hp p rfl
      have h1 : validUtf8 (strBytes "tree " ++ hexEncode th) = true :=
        validUtf8_ascii (fun c hc => by have := mem_treeLine_bounds hth c hc; omega)
      have h1p : validUtf8 (strBytes "parent " ++ hexEncode p) = true :=
        validUtf8_ascii (fun c hc => by have := mem_parentLine_bounds hpb c hc; omega)
      have h2 : (strBytes "tree " ++ hexEncode th) ++ 10 ::
          ((strBytes "parent " ++ hexEncode p) ++ 10 :: (10 :: (msg ++ [10]))) =
          (strBytes "tree " ++ hexEncode th) ++ ([10] ++
            ((strBytes "parent " ++ hexEncode p) ++ ([10, 10] ++ (msg ++ [10])))) := rfl
      rw [h2]
      exact validUtf8_append h1 (validUtf8_append (by decide)
        (validUtf8_append h1p (validUtf8_append (by decide) hmsgNl)))

/-! ## Log loop lemmas (C4) -/

theorem readObject_lookup_some {store : Store} {key : List Nat} {o : ObjectM}
    (h : readObject store key = .ok o) : ∃ f, lookupStore store key = some f := by
  unfold readObject at h
  split at h
  · cases h
  · split at h
    · cases h
    · rename_i frame heq
      exact ⟨frame, heq⟩

theorem readObject_store_congr {s1 s2 : Store} {key : List Nat}
    (h : lookupStore s1 key = lookupStore s2 key) : readObject s1 key = readObject s2 key := by
  unfold readObject
  rw [h]

theorem logLoop_ok_head : ∀ {store : Store} {fuel : Nat} {id : List Nat} {l : List (List Nat)},
    logLoop store fuel id = .ok l → ∃ t, l = id :: t := by
  intro store fuel id l h
  match fuel with
  | 0 => exact absurd h (by simp [logLoop])
  | fuel + 1 =>
      unfold logLoop at h
      cases hr : readObject store (hexEncode id) with
      | error e => rw [hr, except_bind_err] at h; cases h
      | ok obj =>
          rw [hr, except_bind_ok] at h
          cases hos : objectString obj with
          | error e => rw [hos, except_bind_err] at h; cases h
          | ok desc =>
              rw [hos, except_bind_ok] at h
              dsimp only at h
              split at h
              · cases h
              · split at h
                · cases h
                · split at h
                  · cases h
                    exact ⟨[], rfl⟩
                  · split at h
                    · cases h
                    · split at h
                      · cases h
                      · rename_i pid hdec
                        cases hrec : logLoop store fuel pid with
                        | error e => rw [hrec, except_bind_err] at h; cases h
                        | ok rest =>
                            rw [hrec, except_bind_ok] at h
                            cases h
                            exact ⟨rest, rfl⟩

theorem logLoop_cons {store : Store} {key2 v : List Nat}
    (hfresh : lookupStore store key2 = none) :
    ∀ (fuel : Nat) (id : List Nat) (l : List (List Nat)),
      logLoop store fuel id = .ok l → logLoop ((key2, v) :: store) fuel id = .ok l := by
  intro fuel
  induction fuel with
  | zero => intro id l h; exact absurd h (by simp [logLoop])
  | succ fuel ih =>
      intro id l h
      unfold logLoop at h ⊢
      cases hr : readObject store (hexEncode id) with
      | error e => rw [hr, except_bind_err] at h; cases h
      | ok obj =>
          have hr2 : readObject ((key2, v) :: store) (hexEncode id) = .ok obj := by
            obtain ⟨f, hf⟩ := readObject_lookup_some hr
            have hne : key2 ≠ hexEncode id := by
              intro he
              rw [he] at hfresh
              rw [hfresh] at hf
              cases hf
            rw [readObject_store_congr (lookupStore_cons_ne hne v store)]
            exact hr
          rw [hr, except_bind_ok] at h
          rw [hr2, except_bind_ok]
          cases hos : objectString obj with
          | error e => rw [hos, except_bind_err] at h; cases h
          | ok desc =>
              simp only [hos, except_bind_ok] at h ⊢
              cases hfi : (rustLines desc).findIdx? (fun l => l.isEmpty) with
              | none => rw [hfi] at h; cases h
              | some idx =>
                  rw [hfi] at h
                  dsimp only at h ⊢
                  cases hg : (rustLines desc).get? (idx + 1) with
                  | none => rw [hg] at h; cases h
                  | some ml =>
                      rw [hg] at h
                      dsimp only at h ⊢
                      cases hfd : (rustLines desc).find?
                          (fun l => (strBytes "parent ").isPrefixOf l) with
                      | none => rw [hfd] at h; exact h
                      | some pl =>
                          rw [hfd] at h
                          dsimp only at h ⊢
                          cases hsp : splitOnceAt 32 pl with
                          | none => rw [hsp] at h; cases h
                          | some sp =>
                              rw [hsp] at h
                              dsimp only at h ⊢
                              cases hhd : hexDecode20 sp.2 with
                              | none => rw [hhd] at h; cases h
                              | some pid =>
                                  rw [hhd] at h
                                  dsimp only at h ⊢
                                  cases hrec : logLoop store fuel pid with
                                  | error e => rw [hrec, except_bind_err] at h; cases h
                                  | ok rest =>
                                      rw [hrec, except_bind_ok] at h
                                      rw [ih pid rest hrec, except_bind_ok]
                                      exact h

theorem objectString_commit {sz : Nat} {data : List Nat} (hv : validUtf8 data = true) :
    objectString ⟨.commit, sz, data⟩ = .ok data := by
  unfold objectString
  dsimp only
  rw [hv]
  rfl

theorem logLoop_step_none {store : Store} {id th msg : List Nat} {sz : Nat} (fuel : Nat)
    (hth : ∀ b ∈ th, b < 256)
    (hnp : ∀ ln ∈ (splitNl msg).map stripCr, ((strBytes "parent ").isPrefixOf ln) = false)
    (hvalid : validUtf8 (commitPayload none th msg) = true)
    (hread : readObject store (hexEncode id) = .ok ⟨.commit, sz, commitPayload none th msg⟩) :
    logLoop store (fuel + 1) id = .ok [id] := by
  unfold logLoop
  rw [hread, except_bind_ok, objectString_commit hvalid, except_bind_ok]
  dsimp only
  rw [rustLines_payload_none th msg hth]
  have hq : ∃ q qs, (splitNl msg).map stripCr = q :: qs := by
    cases hsp : splitNl msg with
    | nil => exact absurd hsp (splitNl_ne_nil msg)
    | cons q qs => exact ⟨stripCr q, qs.map stripCr, List.map_cons stripCr q qs⟩
  obtain ⟨q, qs, hq⟩ := hq
  rw [hq]
  rw [show ((strBytes "tree " ++ hexEncode th) :: [] :: q :: qs).findIdx?
      (fun l => l.isEmpty) = some 1 from rfl]
  dsimp only
  rw [show ((strBytes "tree " ++ hexEncode th) :: [] :: q :: qs).get? (1 + 1) =
      some q from rfl]
  dsimp only
  rw [List.find?_cons_of_neg _ (by rw [parent_not_prefixOf_tree]; simp)]
  rw [List.find?_cons_of_neg _ (by rw [parent_not_prefixOf_nil]; simp)]
  have hnp' : ∀ ln ∈ q :: qs, ¬ ((strBytes "parent ").isPrefixOf ln = true) := by
    intro ln hln
    rw [hq] at hnp
    rw [hnp ln hln]
    simp
  rw [List.find?_eq_none.mpr hnp']

theorem logLoop_step_some {store : Store} {id th msg prev : List Nat} {sz : Nat}
    {fuel : Nat} {l : List (List Nat)}
    (hth : ∀ b ∈ th, b < 256)
    (hprevb : ∀ b ∈ prev, b < 256) (hprevl : prev.length = 20)
    (hvalid : validUtf8 (commitPayload (some prev) th msg) = true)
    (hread : readObject store (hexEncode id) =
      .ok ⟨.commit, sz, commitPayload (some prev) th msg⟩)
    (hrec : logLoop store fuel prev = .ok l) :
    logLoop store (fuel + 1) id = .ok (id :: l) := by
  unfold logLoop
  rw [hread, except_bind_ok, objectString_commit hvalid, except_bind_ok]
  dsimp only
  rw [rustLines_payload_some prev th msg hth hprevb]
  have hq : ∃ q qs, (splitNl msg).map stripCr = q :: qs := by
    cases hsp : splitNl msg with
    | nil => exact absurd hsp (splitNl_ne_nil msg)
    | cons q qs => exact ⟨stripCr q, qs.map stripCr, List.map_cons stripCr q qs⟩
  obtain ⟨q, qs, hq⟩ := hq
  rw [hq]
  rw [show ((strBytes "tree " ++ hexEncode th) :: (strBytes "parent " ++ hexEncode prev) ::
      [] :: q :: qs).findIdx? (fun l => l.isEmpty) = some 2 from rfl]
  dsimp only
  rw [show ((strBytes "tree " ++ hexEncode th) :: (strBytes "parent " ++ hexEncode prev) ::
      [] :: q :: qs).get? (2 + 1) = some q from rfl]
  dsimp only
  rw [List.find?_cons_of_neg _ (by rw [parent_not_prefixOf_tree]; simp)]
  rw [List.find?_cons_of_pos _ (isPrefixOf_append_self _ _)]
  dsimp only
  have hsplit : splitOnceAt 32 (strBytes "parent " ++ hexEncode prev) =
      some (strBytes "parent", hexEncode prev) := by
    have hpp : strBytes "parent " = strBytes "parent" ++ [32] := by decide
    rw [hpp, List.append_assoc]
    exact splitOnceAt_spec (by decide) (hexEncode prev)
  rw [hsplit]
  dsimp only
  rw [hexDecode20_hexEncode hprevb hprevl]
  dsimp only
  rw [hrec, except_bind_ok]

/-! ## C4: commit payload, branch tip, and log order -/

theorem isAsciiWs_ge_48_false {c : Nat} (h : 48 ≤ c) : isAsciiWs c = false := by
  unfold isAsciiWs
  simp only [decide_eq_false_iff_not]
  omega

theorem currentCommit_of_hex (store : Store) (h : List Nat) (hb : ∀ b ∈ h, b < 256)
    (hl : h.length = 20) :
    currentCommit ⟨store, some (hexEncode h)⟩ = some h := by
  unfold currentCommit
  dsimp only
  rw [trimAscii_eq_self (fun c hc => isAsciiWs_ge_48_false (hexEncode_bounds hb c hc).1)]
  exact hexDecode20_hexEncode hb hl

theorem currentCommit_spec {st : GitState} {prev : List Nat}
    (h : currentCommit st = some prev) : prev.length = 20 ∧ ∀ b ∈ prev, b < 256 := by
  unfold currentCommit at h
  cases hb : st.branch with
  | none => rw [hb] at h; cases h
  | some content => rw [hb] at h; exact hexDecode20_spec h

/-- C4 (amended): `commit(message)` stores a Commit whose payload is
exactly the tree line, a parent line present iff a current commit
existed, the blank separator, and the message, and afterwards
`current_commit()` is the new id — unconditionally.  The claimed log
order — the new id first, then the previous tip (if any), then the rest
of the chain — holds under the amendment's proviso that no line of the
message begins with `parent `: the log walk scans every payload line
for that prefix, so a message line starting `parent ` is itself
followed as a parent pointer (a separate counterexample exhibits the
unrestricted claim failing).  The message is a Rust `&str`, hence valid
UTF-8; the new object is not already present in the store. -/
theorem C4_commit_chain (st : GitState) (treeHash msg : List Nat) (fuel : Nat)
    (l : List (List Nat))
    (hth : ∀ b ∈ treeHash, b < 256)
    (hmsg : validUtf8 msg = true)
    (hnp : ∀ ln ∈ (splitNl msg).map stripCr, ((strBytes "parent ").isPrefixOf ln) = false)
    (hfresh : lookupStore st.store (hexEncode (sha1Bytes (frameBytes .commit
        (commitPayload (currentCommit st) treeHash msg)))) = none)
    (hold : (currentCommit st = none ∧ l = []) ∨
        (∃ prev, currentCommit st = some prev ∧ logIds st fuel = .ok l)) :
    (commitS st treeHash msg).2 =
        sha1Bytes (frameBytes .commit (commitPayload (currentCommit st) treeHash msg)) ∧
    lookupStore (commitS st treeHash msg).1.store (hexEncode (commitS st treeHash msg).2) =
        some (frameBytes .commit (commitPayload (currentCommit st) treeHash msg)) ∧
    currentCommit (commitS st treeHash msg).1 = some (commitS st treeHash msg).2 ∧
    logIds (commitS st treeHash msg).1 (fuel + 1) = .ok ((commitS st treeHash msg).2 :: l) ∧
    (∀ prev, currentCommit st = some prev → ∃ t, l = prev :: t) := by
  set pay := commitPayload (currentCommit st) treeHash msg with hpay
  set newH := sha1Bytes (frameBytes .commit pay) with hnewH
  have hw : writeObjectS st.store .commit pay =
      ((hexEncode newH, frameBytes .commit pay) :: st.store, newH) :=
    writeObjectS_of_fresh hfresh
  have hcommit : commitS st treeHash msg =
      (⟨(hexEncode newH, frameBytes .commit pay) :: st.store, some (hexEncode newH)⟩, newH) := by
    unfold commitS
    dsimp only
    rw [← hpay, hw]
  rw [hcommit]
  dsimp only
  have hid : ∀ b ∈ newH, b < 256 := sha1Bytes_lt_256 _
  have hidl : newH.length = 20 := by rw [hnewH]; exact sha1Bytes_length _
  have hcc : currentCommit ⟨(hexEncode newH, frameBytes .commit pay) :: st.store,
      some (hexEncode newH)⟩ = some newH := currentCommit_of_hex _ _ hid hidl
  refine ⟨rfl, lookupStore_cons_self _ _ _, hcc, ?_, ?_⟩
  · unfold logIds
    rw [hcc]
    dsimp only
    have hread : readObject ((hexEncode newH, frameBytes .commit pay) :: st.store)
        (hexEncode newH) = .ok ⟨readKindOf .commit, pay.length, pay⟩ :=
      readObject_lookup_frame (lookupStore_cons_self _ _ _)
        (by rw [hnewH, hexEncode_sha1_length]; omega) (by simp)
    rcases hold with ⟨hnone, hl⟩ | ⟨prev, hprev, hlog⟩
    · subst hl
      have hp2 : pay = commitPayload none treeHash msg := by rw [hpay, hnone]
      rw [hp2] at hread ⊢
      exact logLoop_step_none fuel hth hnp
        (validUtf8_commitPayload none treeHash msg hth (fun p hp => by cases hp) hmsg) hread
    · have hps := currentCommit_spec hprev
      have hp2 : pay = commitPayload (some prev) treeHash msg := by rw [hpay, hprev]
      rw [hp2] at hread ⊢
      have hvalid := validUtf8_commitPayload (some prev) treeHash msg hth
        (fun p hp => by cases hp; exact hps.2) hmsg
      have hlog' : logLoop st.store fuel prev = .ok l := by
        unfold logIds at hlog
        rw [hprev] at hlog
        exact hlog
      exact logLoop_step_some hth hps.2 hps.1 hvalid hread
        (logLoop_cons hfresh fuel prev l hlog')
  · intro prev hprev
    rcases hold with ⟨hnone, _⟩ | ⟨prev', hprev', hlog⟩
    · rw [hnone] at hprev
      cases hprev
    · have hpe : prev' = prev := by
        rw [hprev] at hprev'
        cases hprev'
        rfl
      subst hpe
      have hlog' : logLoop st.store fuel prev' = .ok l := by
        unfold logIds at hlog
        rw [hprev'] at hlog
        exact hlog
      exact logLoop_ok_head hlog'

def c4st0 : GitState := ⟨[], none⟩

def c4th : List Nat := List.replicate 20 0

def c4msg : List Nat := strBytes "init"

def c4st1 : GitState := (commitS c4st0 c4th c4msg).1

def c4id1 : List Nat := (commitS c4st0 c4th c4msg).2

def c4st2 : GitState := (commitS c4st1 c4th (strBytes "more")).1

def c4id2 : List Nat := (commitS c4st1 c4th (strBytes "more")).2

theorem C4_witness :
    validUtf8 c4msg = true ∧
    currentCommit c4st0 = none ∧
    logIds c4st1 1 = .ok [c4id1] ∧
    currentCommit c4st1 = some c4id1 ∧
    logIds c4st2 2 = .ok [c4id2, c4id1] := by
  have h1 := C4_commit_chain c4st0 c4th c4msg 0 []
    (by intro b hb; simp [c4th] at hb; omega)
    (by decide) (by decide) rfl (Or.inl ⟨rfl, rfl⟩)
  have h2 := C4_commit_chain c4st1 c4th (strBytes "more") 1 [c4id1]
    (by intro b hb; simp [c4th] at hb; omega)
    (by decide) (by decide) (by decide)
    (Or.inr ⟨c4id1, h1.2.2.1, h1.2.2.2.1⟩)
  exact ⟨by decide, rfl, h1.2.2.2.1, h1.2.2.1, h2.2.2.2.1⟩

def c4badMsg : List Nat := strBytes "parent 0000000000000000000000000000000000000000"

def c4badSt : GitState := (commitS c4st0 c4th c4badMsg).1

def c4badId : List Nat := (commitS c4st0 c4th c4badMsg).2

/-- C4 counterexample: the unrestricted claim fails.  On an empty
repository, committing the single-line message
`parent 0000000000000000000000000000000000000000` succeeds and sets
the branch tip to the new id, but `log()` does not visit the new id
and stop there: the walk scans every line of the commit payload for a
`parent ` prefix, so it follows the message line as a parent pointer
and fails with not-found on the all-zero id instead of returning the
one-element history the claim requires for a parentless commit. -/
theorem C4_counterexample :
    validUtf8 c4badMsg = true ∧
    currentCommit c4st0 = none ∧
    currentCommit c4badSt = some c4badId ∧
    logIds c4badSt 5 = .error .notFound := by
  exact ⟨by decide, rfl, rfl, rfl⟩
